import Mathlib

/-!
# Verification of a Brainfuck interpreter / JIT compiler (jsks/bf)

Shallow embedding of the repository's C sources:

* `BF` models `src/bf.c` — the optimizing parser producing the typed IR
  (run-length fusion, offset coalescing, zero-loop and scan-loop
  recognition, bracket linking), the IR dump (`print_ast`), the
  bytecode interpreter `run` over a tape of byte cells, and the
  strict-mode variant with `BOUNDS_CHECK` / `OVERFLOW_CHECK` /
  `UNDERFLOW_CHECK` enabled (`_BF_STRICT_CHECKS`).

* `Jit` models `src/jit.c` — `compile_bf`, which lowers the source text
  directly to a flat list of libjit-level instructions, together with
  an executable semantics for those instructions.

Source bytes are modelled as `List Nat` (the byte values of the C
string, which the C loops read until the terminating NUL, modelled by
either the end of the list or an explicit 0 byte).  Tape cells are
`Nat` values in `[0, 256)` — the unsigned view of the C `int8_t` cells,
whose arithmetic is two's-complement wraparound, i.e. mod 256; the
strict-mode checks use the signed view via `BF.signed`.  The tape is a
total function `Int → Nat`: the non-strict C code performs no bounds
checks, and all executions considered by the theorems stay inside
`[0, TAPE_SIZE)` where the array and the function model agree.
Unbounded C loops are modelled with an explicit fuel parameter.
-/

namespace BF

/-- The nine IR opcodes of `src/bf.c` (the `op_code` enum). -/
inductive OpCode
  | ZERO
  | ZEROSEEK
  | ADD
  | MINUS
  | READ
  | PUT
  | JMP_FWD
  | JMP_BCK
  | END
deriving DecidableEq, Repr

/-- One IR instruction: `struct op { op_code code; ssize_t arg, offset; }`. -/
structure Op where
  code : OpCode
  arg : Int
  offset : Int
deriving DecidableEq, Repr

/-- The fatal parse errors raised via `errx` in `parse`. -/
inductive PErr
  | missingOpen     -- "Missing opening '['"
  | missingClose    -- "Missing closing ']'"
  | nestingTooDeep  -- "Nested loops exceeded stack size"
deriving DecidableEq, Repr

/-- `is_valid_token` from `src/bf.c`: the eight significant characters
`+ - > < . , [ ]` (byte values 43, 45, 62, 60, 46, 44, 91, 93). -/
def is_valid_token (ch : Nat) : Bool :=
  ch == 43 || ch == 45 || ch == 62 || ch == 60 || ch == 46 || ch == 44 ||
    ch == 91 || ch == 93

/-- `is_repeatable_token` from `src/bf.c`: only `+` and `-` fuse by
run-length in the interpreter's parser. -/
def is_repeatable_token (ch : Nat) : Bool :=
  ch == 43 || ch == 45

/-- `peek` from `src/bf.c`: advance past comment bytes to the next
significant character, stopping at the terminating NUL.  The C function
starts at `++s`; here the argument list already is the part of the
string after the examined character, and the result is the suffix
beginning at the found token (`NULL` becomes `none`). -/
def peek : List Nat → Option (List Nat)
  | [] => none
  | c :: cs => if c = 0 then none else if is_valid_token c then some (c :: cs) else peek cs

/-- The clear-cell lookahead of `parse` / `compile_bf`, at a `[` whose
remaining input is `s`: the C condition
`*s == '-' && (next_token = peek(s)) && *next_token == ']'`.
Returns the input remaining after the closing `]` (`s = next_token + 1`)
when the window is recognized. -/
def zwin : List Nat → Option (List Nat)
  | [] => none
  | b :: s2 =>
    if b = 45 then
      match peek s2 with
      | some (t :: u) => if t = 93 then some u else none
      | _ => none
    else none

/-- Parser state: the growing program vector, `prev_token`, the pending
pointer `offset`, and the bracket stack (`lifo jmp_stack`, top first). -/
structure ParseSt where
  program : List Op
  prevToken : Nat
  offset : Int
  stack : List Nat
deriving Repr

/-- `last_op(program)->arg++` — increment the argument of the most
recently emitted instruction (run-length fusion). -/
def bumpLast (P : List Op) : List Op :=
  match P.getLast? with
  | some o => P.dropLast ++ [{ o with arg := o.arg + 1 }]
  | none => P

/-- `program->ops[jmp_pos].arg = a` — back-patch the argument of the
instruction at index `j` (a no-op out of range, which parsing never hits:
stack entries are always valid indices of `JMP_FWD` instructions). -/
def backpatch (P : List Op) (j : Nat) (a : Nat) : List Op :=
  match P.get? j with
  | some o => P.set j { o with arg := (a : Int) }
  | none => P

/-- One iteration of the `while ((ch = *s++))` loop body of `parse`, for a
significant-or-comment byte `ch` with remaining input `s`: returns the
updated parser state and the input to continue from (which is `s` except
when the clear-cell window `[-]` is recognized and skipped).  Mirrors the
C `switch` including the run-length fusion short-circuit and the final
`if (ch != '>' && ch != '<') offset = 0;`. -/
def parseStep (ch : Nat) (s : List Nat) (st : ParseSt) :
    Except PErr (ParseSt × List Nat) :=
  if is_valid_token ch = false then .ok (st, s)
  else if ch = st.prevToken ∧ is_repeatable_token ch = true then
    .ok ({ st with program := bumpLast st.program }, s)
  else
    let st1 := { st with prevToken := ch }
    if ch = 45 then
      .ok ({ st1 with program := st1.program ++ [⟨.MINUS, 1, st1.offset⟩], offset := 0 }, s)
    else if ch = 43 then
      .ok ({ st1 with program := st1.program ++ [⟨.ADD, 1, st1.offset⟩], offset := 0 }, s)
    else if ch = 60 then
      .ok ({ st1 with offset := st1.offset - 1 }, s)
    else if ch = 62 then
      .ok ({ st1 with offset := st1.offset + 1 }, s)
    else if ch = 46 then
      .ok ({ st1 with program := st1.program ++ [⟨.PUT, 0, st1.offset⟩], offset := 0 }, s)
    else if ch = 44 then
      .ok ({ st1 with program := st1.program ++ [⟨.READ, 0, st1.offset⟩], offset := 0 }, s)
    else if ch = 91 then
      match zwin s with
      | some u =>
          .ok ({ st1 with program := st1.program ++ [⟨.ZERO, 0, st1.offset⟩], offset := 0 }, u)
      | none =>
          if st1.stack.length = 256 then .error .nestingTooDeep
          else
            .ok ({ st1 with program := st1.program ++ [⟨.JMP_FWD, 0, st1.offset⟩],
                            offset := 0,
                            stack := st1.program.length :: st1.stack }, s)
    else if ch = 93 then
      match st1.stack with
      | [] => .error .missingOpen
      | jmp_pos :: stack2 =>
        match st1.program.getLast? with
        | some p =>
          if p.code = .JMP_FWD then
            .ok ({ st1 with
                    program := st1.program.dropLast ++ [⟨.ZEROSEEK, st1.offset, p.offset⟩],
                    offset := 0, stack := stack2 }, s)
          else
            .ok ({ st1 with
                    program := backpatch st1.program jmp_pos st1.program.length ++
                      [⟨.JMP_BCK, (jmp_pos : Int), st1.offset⟩],
                    offset := 0, stack := stack2 }, s)
        | none =>
            .ok ({ st1 with
                    program := backpatch st1.program jmp_pos st1.program.length ++
                      [⟨.JMP_BCK, (jmp_pos : Int), st1.offset⟩],
                    offset := 0, stack := stack2 }, s)
    else
      .ok ({ st1 with offset := 0 }, s)

/-- The main loop of `parse`.  Fuel decreases by one per consumed byte
(the clear-cell skip consumes more input than fuel, so any
`fuel > length` suffices; see `parseLoop_fuel`). -/
def parseLoop : Nat → List Nat → ParseSt → Except PErr ParseSt
  | 0, _, st => .ok st
  | _ + 1, [], st => .ok st
  | fuel + 1, ch :: s, st =>
    if ch = 0 then .ok st
    else
      match parseStep ch s st with
      | .error e => .error e
      | .ok (st', s') => parseLoop fuel s' st'

/-- `parse` from `src/bf.c`: run the loop from the empty state, require
an empty bracket stack (`Missing closing ']'` otherwise) and append the
`END` terminator. -/
def parse (s : List Nat) : Except PErr (List Op) :=
  match parseLoop (s.length + 1) s ⟨[], 0, 0, []⟩ with
  | .error e => .error e
  | .ok st =>
    if st.stack.isEmpty then .ok (st.program ++ [⟨.END, 0, 0⟩]) else .error .missingClose

/-- The opcode names used by `print_ast`. -/
def opName : OpCode → String
  | .ZERO => "ZERO"
  | .ZEROSEEK => "ZEROSEEK"
  | .ADD => "ADD"
  | .MINUS => "MINUS"
  | .READ => "READ"
  | .PUT => "PUT"
  | .JMP_FWD => "JMP_FWD"
  | .JMP_BCK => "JMP_BCK"
  | .END => "END"

/-- `print_ast` from `src/bf.c`: one line `OPCODE(arg, offset)` per
instruction up to (excluding) the first `END`, then a final line `END`.
Modelled as the list of printed lines. -/
def print_ast : List Op → List String
  | [] => ["END"]
  | p :: rest =>
    if p.code = .END then ["END"]
    else (opName p.code ++ "(" ++ toString p.arg ++ ", " ++ toString p.offset ++ ")")
      :: print_ast rest

end BF

/-- Pointwise update of a total tape, `tape[j] = v`. -/
def upd (t : Int → Nat) (j : Int) (v : Nat) : Int → Nat :=
  fun k => if k = j then v else t k

namespace BF

/-- Interpreter state for `run`: the tape (unsigned view of the `int8_t`
cells), the tape index `i`, the remaining standard input, and the bytes
written to standard output so far. -/
structure RunSt where
  tape : Int → Nat
  i : Int
  inp : List Nat
  out : List Nat

/-- The `ZEROSEEK` inner loop `while (tape[i] != 0) i += p->arg;`,
returning the final index, or `none` when the fuel runs out (the C loop
does not terminate in that case unless a zero cell is eventually hit). -/
def zeroseekRun (t : Int → Nat) (stride : Int) : Nat → Int → Option Int
  | 0, _ => none
  | fuel + 1, i => if t i = 0 then some i else zeroseekRun t stride fuel (i + stride)

/-- The dispatch loop of `run` (non-strict build): fetch the op at `pc`,
stop at `END`, otherwise apply `i += p->offset` and the op's effect.
A jump sets `p = &program->ops[p->arg]` and the `for` loop then
increments, so execution resumes at index `arg + 1`.  `none` is fuel
exhaustion. -/
def execOps (prog : List Op) : Nat → Nat → RunSt → Option RunSt
  | 0, _, _ => none
  | fuel + 1, pc, st =>
    match prog.get? pc with
    | none => none
    | some p =>
      match p.code with
      | .END => some st
      | .ZERO =>
          let i := st.i + p.offset
          execOps prog fuel (pc + 1) { st with i := i, tape := upd st.tape i 0 }
      | .ZEROSEEK =>
          let i := st.i + p.offset
          match zeroseekRun st.tape p.arg (fuel + 1) i with
          | some i2 => execOps prog fuel (pc + 1) { st with i := i2 }
          | none => none
      | .ADD =>
          let i := st.i + p.offset
          execOps prog fuel (pc + 1)
            { st with i := i,
                      tape := upd st.tape i ((((st.tape i : Int) + p.arg).emod 256).toNat) }
      | .MINUS =>
          let i := st.i + p.offset
          execOps prog fuel (pc + 1)
            { st with i := i,
                      tape := upd st.tape i ((((st.tape i : Int) - p.arg).emod 256).toNat) }
      | .READ =>
          let i := st.i + p.offset
          match st.inp with
          | [] => execOps prog fuel (pc + 1) { st with i := i, tape := upd st.tape i 255 }
          | b :: r =>
              execOps prog fuel (pc + 1)
                { st with i := i, tape := upd st.tape i (b % 256), inp := r }
      | .PUT =>
          let i := st.i + p.offset
          execOps prog fuel (pc + 1) { st with i := i, out := st.out ++ [st.tape i] }
      | .JMP_FWD =>
          let i := st.i + p.offset
          if st.tape i = 0 then execOps prog fuel (p.arg.toNat + 1) { st with i := i }
          else execOps prog fuel (pc + 1) { st with i := i }
      | .JMP_BCK =>
          let i := st.i + p.offset
          if st.tape i = 0 then execOps prog fuel (pc + 1) { st with i := i }
          else execOps prog fuel (p.arg.toNat + 1) { st with i := i }

/-- The freshly zeroed tape and empty output `run` starts from. -/
def initSt (input : List Nat) : RunSt :=
  ⟨fun _ => 0, 0, input, []⟩

/-- Parse the source and run the interpreter on the given stdin: the
bytes written to stdout, or `none` on parse failure or fuel exhaustion. -/
def runOut (src input : List Nat) (fuel : Nat) : Option (List Nat) :=
  match parse src with
  | .error _ => none
  | .ok prog => (execOps prog fuel 0 (initSt input)).map RunSt.out

/-- Strict-mode traps (`_BF_STRICT_CHECKS`): out-of-bounds tape access,
integer overflow, integer underflow. -/
inductive Trap
  | oob
  | overflow
  | underflow
deriving DecidableEq, Repr

/-- The signed `int8_t` view of a cell value in `[0, 256)`. -/
def signed (v : Nat) : Int :=
  if v < 128 then (v : Int) else (v : Int) - 256

/-- Strict-mode `ZEROSEEK` loop: `BOUNDS_CHECK(i)` after each stride. -/
def strictZeroseek (t : Int → Nat) (stride : Int) : Nat → Int → Option (Except Trap Int)
  | 0, _ => none
  | fuel + 1, i =>
    if t i = 0 then some (.ok i)
    else
      let i2 := i + stride
      if i2 < 0 ∨ 30000 ≤ i2 then some (.error .oob)
      else strictZeroseek t stride fuel i2

/-- `run` compiled with `_BF_STRICT_CHECKS`: `BOUNDS_CHECK(i)` after
every `i += p->offset`, `OVERFLOW_CHECK(tape, i, x)` trapping when
`tape[i] >= INT8_MAX - x`, and `UNDERFLOW_CHECK(tape, i, x)` trapping
when `tape[i] <= INT8_MIN + x` (both on the signed cell view). -/
def strictExec (prog : List Op) : Nat → Nat → RunSt → Option (Except Trap RunSt)
  | 0, _, _ => none
  | fuel + 1, pc, st =>
    match prog.get? pc with
    | none => none
    | some p =>
      match p.code with
      | .END => some (.ok st)
      | .ZERO =>
          let i := st.i + p.offset
          if i < 0 ∨ 30000 ≤ i then some (.error .oob)
          else strictExec prog fuel (pc + 1) { st with i := i, tape := upd st.tape i 0 }
      | .ZEROSEEK =>
          let i := st.i + p.offset
          if i < 0 ∨ 30000 ≤ i then some (.error .oob)
          else
            match strictZeroseek st.tape p.arg (fuel + 1) i with
            | some (.ok i2) => strictExec prog fuel (pc + 1) { st with i := i2 }
            | some (.error t) => some (.error t)
            | none => none
      | .ADD =>
          let i := st.i + p.offset
          if i < 0 ∨ 30000 ≤ i then some (.error .oob)
          else if 127 - p.arg ≤ signed (st.tape i) then some (.error .overflow)
          else
            strictExec prog fuel (pc + 1)
              { st with i := i,
                        tape := upd st.tape i ((((st.tape i : Int) + p.arg).emod 256).toNat) }
      | .MINUS =>
          let i := st.i + p.offset
          if i < 0 ∨ 30000 ≤ i then some (.error .oob)
          else if signed (st.tape i) ≤ -128 + p.arg then some (.error .underflow)
          else
            strictExec prog fuel (pc + 1)
              { st with i := i,
                        tape := upd st.tape i ((((st.tape i : Int) - p.arg).emod 256).toNat) }
      | .READ =>
          let i := st.i + p.offset
          if i < 0 ∨ 30000 ≤ i then some (.error .oob)
          else
            match st.inp with
            | [] => strictExec prog fuel (pc + 1) { st with i := i, tape := upd st.tape i 255 }
            | b :: r =>
                strictExec prog fuel (pc + 1)
                  { st with i := i, tape := upd st.tape i (b % 256), inp := r }
      | .PUT =>
          let i := st.i + p.offset
          if i < 0 ∨ 30000 ≤ i then some (.error .oob)
          else strictExec prog fuel (pc + 1) { st with i := i, out := st.out ++ [st.tape i] }
      | .JMP_FWD =>
          let i := st.i + p.offset
          if i < 0 ∨ 30000 ≤ i then some (.error .oob)
          else if st.tape i = 0 then strictExec prog fuel (p.arg.toNat + 1) { st with i := i }
          else strictExec prog fuel (pc + 1) { st with i := i }
      | .JMP_BCK =>
          let i := st.i + p.offset
          if i < 0 ∨ 30000 ≤ i then some (.error .oob)
          else if st.tape i = 0 then strictExec prog fuel (pc + 1) { st with i := i }
          else strictExec prog fuel (p.arg.toNat + 1) { st with i := i }

/-- Parse and run under strict checks: `some (.ok out)` on normal
termination, `some (.error t)` on a trap, `none` on parse failure or
fuel exhaustion. -/
def strictRunOut (src input : List Nat) (fuel : Nat) : Option (Except Trap (List Nat)) :=
  match parse src with
  | .error _ => none
  | .ok prog =>
    match strictExec prog fuel 0 (initSt input) with
    | some (.ok st) => some (.ok st.out)
    | some (.error t) => some (.error t)
    | none => none

end BF

namespace Jit

/-!
Model of `src/jit.c`.  `compile_bf` walks the source text once and emits
libjit instructions; we record them as a flat `JInstr` list.  The
helpers `is_valid_token` and `peek` of `src/jit.c` are character-for-
character identical to the ones in `src/bf.c`, so `BF.is_valid_token`,
`BF.peek` and the derived `BF.zwin` are reused; `is_repeatable_token`
differs (the JIT also fuses `>` and `<`) and is defined here.

The key arithmetic detail is `OP_ARG`:

    #define OP_ARG(fn, x) jit_value_create_nint_constant(fn, jit_type_ubyte, 1 + x)

the fused run length `1 + repeated` becomes a constant of type
`jit_type_ubyte`, i.e. it is truncated to `(1 + x) mod 256` before it
is added to the cell or to the tape pointer.
-/

/-- `is_repeatable_token` from `src/jit.c`: `>`, `<`, `+` and `-`. -/
def is_repeatable_token (ch : Nat) : Bool :=
  ch == 62 || ch == 60 || ch == 43 || ch == 45

/-- `OP_ARG`: the run length `1 + repeated` as a `jit_type_ubyte`
constant, truncated to 8 bits. -/
def OP_ARG (x : Nat) : Nat := (1 + x) % 256

/-- The libjit instructions emitted by `compile_bf`, coarsened to one
record per source construct (a cell load feeding an op is folded into
the op): pointer moves from `>`/`<`, cell add/sub from `+`/`-` (load,
add/sub, convert to ubyte, store), `putchar`/`getchar` calls, the
clear-cell store of `[-]`, and the label/branch skeleton of loops
(`[` places the `start` label and a branch-if-zero to `end`; `]`
branches back to `start` if nonzero and places the `end` label). -/
inductive JInstr
  | movePtrAdd (k : Nat)
  | movePtrSub (k : Nat)
  | addCell (k : Nat)
  | subCell (k : Nat)
  | put
  | get
  | setZero
  | label (l : Nat)
  | brIfNot (l : Nat)
  | brIf (l : Nat)
  | ret
deriving DecidableEq, Repr

/-- Compiler state: the emitted code, the `jmp_stack` of `(start, end)`
label pairs (top first), a supply of fresh label names (the C code uses
`jit_label_t` slots created by `ADD_JMP`), and the `repeated` counter. -/
structure CSt where
  code : List JInstr
  stack : List (Nat × Nat)
  fresh : Nat
  repeated : Nat
deriving Repr

/-- One iteration of the `while ((ch = *s++))` loop body of `compile_bf`
(for `ch` with remaining input `s`): the run-length short-circuit
`ch == *s && is_repeatable_token(ch)` compares against the next raw
byte, and `repeated` is reset to 0 after each emitted construct. -/
def compileStep (ch : Nat) (s : List Nat) (st : CSt) :
    Except BF.PErr (CSt × List Nat) :=
  if BF.is_valid_token ch = false then .ok (st, s)
  else if s.head? = some ch ∧ is_repeatable_token ch = true then
    .ok ({ st with repeated := st.repeated + 1 }, s)
  else
    if ch = 62 then
      .ok ({ st with code := st.code ++ [.movePtrAdd (OP_ARG st.repeated)], repeated := 0 }, s)
    else if ch = 60 then
      .ok ({ st with code := st.code ++ [.movePtrSub (OP_ARG st.repeated)], repeated := 0 }, s)
    else if ch = 43 then
      .ok ({ st with code := st.code ++ [.addCell (OP_ARG st.repeated)], repeated := 0 }, s)
    else if ch = 45 then
      .ok ({ st with code := st.code ++ [.subCell (OP_ARG st.repeated)], repeated := 0 }, s)
    else if ch = 46 then
      .ok ({ st with code := st.code ++ [.put], repeated := 0 }, s)
    else if ch = 44 then
      .ok ({ st with code := st.code ++ [.get], repeated := 0 }, s)
    else if ch = 91 then
      match BF.zwin s with
      | some u => .ok ({ st with code := st.code ++ [.setZero], repeated := 0 }, u)
      | none =>
        if st.stack.length = 256 then .error .nestingTooDeep
        else
          .ok ({ st with
                  code := st.code ++ [.label st.fresh, .brIfNot (st.fresh + 1)],
                  stack := (st.fresh, st.fresh + 1) :: st.stack,
                  fresh := st.fresh + 2, repeated := 0 }, s)
    else if ch = 93 then
      match st.stack with
      | [] => .error .missingOpen
      | (lstart, lend) :: stack2 =>
        .ok ({ st with code := st.code ++ [.brIf lstart, .label lend],
                       stack := stack2, repeated := 0 }, s)
    else
      .ok ({ st with repeated := 0 }, s)

/-- The main loop of `compile_bf`. -/
def compileLoop : Nat → List Nat → CSt → Except BF.PErr CSt
  | 0, _, st => .ok st
  | _ + 1, [], st => .ok st
  | fuel + 1, ch :: s, st =>
    if ch = 0 then .ok st
    else
      match compileStep ch s st with
      | .error e => .error e
      | .ok (st', s') => compileLoop fuel s' st'

/-- `compile_bf` from `src/jit.c`: run the loop, require an empty jump
stack (`Missing closing ']'`), and append the `jit_insn_return`. -/
def compile_bf (s : List Nat) : Except BF.PErr (List JInstr) :=
  match compileLoop (s.length + 1) s ⟨[], [], 0, 0⟩ with
  | .error e => .error e
  | .ok st => if st.stack.isEmpty then .ok (st.code ++ [.ret]) else .error .missingClose

/-- Machine state of the compiled function: the tape (byte cells,
unsigned view), the tape pointer as an index (the C value is the
pointer `tape + ptr`), stdin and stdout. -/
structure MSt where
  tape : Int → Nat
  ptr : Int
  inp : List Nat
  out : List Nat

/-- Position of a label in the instruction list. -/
def findLabel (code : List JInstr) (l : Nat) : Option Nat :=
  code.findIdx? (fun ins => ins = .label l)

/-- Executable semantics of the emitted libjit instructions: pointer
arithmetic on `ptr`, cell arithmetic mod 256, `putchar`/`getchar`
(with `getchar` returning −1 at end of input, stored into the ubyte
cell as 255), and branches resolved by label position.  `none` is fuel
exhaustion (or a dangling label, which `compile_bf` never produces). -/
def jexec (code : List JInstr) : Nat → Nat → MSt → Option MSt
  | 0, _, _ => none
  | fuel + 1, pc, st =>
    match code.get? pc with
    | none => none
    | some ins =>
      match ins with
      | .ret => some st
      | .movePtrAdd k => jexec code fuel (pc + 1) { st with ptr := st.ptr + k }
      | .movePtrSub k => jexec code fuel (pc + 1) { st with ptr := st.ptr - k }
      | .addCell k =>
          jexec code fuel (pc + 1)
            { st with tape := upd st.tape st.ptr ((st.tape st.ptr + k) % 256) }
      | .subCell k =>
          jexec code fuel (pc + 1)
            { st with tape := upd st.tape st.ptr ((((st.tape st.ptr : Int) - k).emod 256).toNat) }
      | .put => jexec code fuel (pc + 1) { st with out := st.out ++ [st.tape st.ptr] }
      | .get =>
          match st.inp with
          | [] => jexec code fuel (pc + 1) { st with tape := upd st.tape st.ptr 255 }
          | b :: r =>
              jexec code fuel (pc + 1) { st with tape := upd st.tape st.ptr (b % 256), inp := r }
      | .setZero => jexec code fuel (pc + 1) { st with tape := upd st.tape st.ptr 0 }
      | .label _ => jexec code fuel (pc + 1) st
      | .brIfNot l =>
          if st.tape st.ptr = 0 then
            match findLabel code l with
            | some j => jexec code fuel j st
            | none => none
          else jexec code fuel (pc + 1) st
      | .brIf l =>
          if st.tape st.ptr = 0 then jexec code fuel (pc + 1) st
          else
            match findLabel code l with
            | some j => jexec code fuel j st
            | none => none

/-- The zeroed 30,000-byte tape `main` allocates before calling the
compiled function. -/
def initSt (input : List Nat) : MSt :=
  ⟨fun _ => 0, 0, input, []⟩

/-- Compile the source with `compile_bf` and run the generated function:
the bytes written to stdout, or `none` on compile failure or fuel
exhaustion. -/
def jitRunOut (src input : List Nat) (fuel : Nat) : Option (List Nat) :=
  match compile_bf src with
  | .error _ => none
  | .ok code => (jexec code fuel 0 (initSt input)).map MSt.out

end Jit

instance instDecEqExceptS2P {ε α : Type} [DecidableEq ε] [DecidableEq α] :
    DecidableEq (Except ε α)
  | .ok a, .ok b =>
    if h : a = b then .isTrue (by rw [h]) else .isFalse (by intro hh; cases hh; exact h rfl)
  | .ok _, .error _ => .isFalse (by intro hh; cases hh)
  | .error _, .ok _ => .isFalse (by intro hh; cases hh)
  | .error e, .error f =>
    if h : e = f then .isTrue (by rw [h]) else .isFalse (by intro hh; cases hh; exact h rfl)

namespace BF

/-!
Spec-level analysis definitions used to state the universally
quantified claims: a depth scanner mirroring the parser's traversal of
the significant stream (for the nesting-cap claim), the
significant-subsequence predicates (for the comment-insensitivity
claim), and the jump-pairing invariant (for the bracket-linking claim).
-/

/-- Depth scanner: walks the source exactly as `parse` does (the same
NUL stop, the same clear-cell skip `zwin`), tracking only the number
`d` of simultaneously open, non-collapsed brackets.  Returns `true`
iff a 257th simultaneously open bracket is encountered, i.e. a `[`
must be pushed while `d = 256`, before any unmatched `]` aborts the
scan. -/
def deep257 : Nat → List Nat → Nat → Bool
  | 0, _, _ => false
  | _ + 1, [], _ => false
  | fuel + 1, ch :: s, d =>
    if ch = 0 then false
    else if ch = 91 then
      match zwin s with
      | some u => deep257 fuel u d
      | none => if d = 256 then true else deep257 fuel s (d + 1)
    else if ch = 93 then
      if d = 0 then false else deep257 fuel s (d - 1)
    else deep257 fuel s d

/-- Well-formedness scanner: same traversal as `deep257`, returning
`true` iff the brackets match — no `]` arrives with zero open brackets
and all brackets are closed at the end of the input. -/
def wfScan : Nat → List Nat → Nat → Bool
  | 0, _, d => d == 0
  | _ + 1, [], d => d == 0
  | fuel + 1, ch :: s, d =>
    if ch = 0 then d == 0
    else if ch = 91 then
      match zwin s with
      | some u => wfScan fuel u d
      | none => wfScan fuel s (d + 1)
    else if ch = 93 then
      if d = 0 then false else wfScan fuel s (d - 1)
    else wfScan fuel s d

/-- The source contains no NUL byte (a NUL terminates the C parsing
loop, so bytes after it are not comments — they are unread). -/
def noZero (s : List Nat) : Bool := s.all (fun c => c != 0)

/-- The first significant byte of a list, comments skipped. -/
def firstTok : List Nat → Option Nat
  | [] => none
  | c :: cs => if is_valid_token c then some c else firstTok cs

/-- At input position `rest` (the bytes following some `[`): if the
first significant byte of `rest` is `-`, it must be the very first
byte — i.e. no comment byte separates the `[` from a significant `-`.
Under this condition the clear-cell lookahead `zwin` decides the same
way on `rest` and on its significant subsequence. -/
def zwAgree (rest : List Nat) : Bool :=
  match firstTok rest with
  | some c => if c = 45 then rest.head? == some 45 else true
  | none => true

/-- Every `[` in the source satisfies `zwAgree` for the bytes after it. -/
def stableZW : List Nat → Bool
  | [] => true
  | c :: rest => (if c = 91 then zwAgree rest else true) && stableZW rest

/-- Indices `i < j` of `P` holding a linked jump pair: a `JMP_FWD` at
`i` whose stored `arg` is `j`, and a `JMP_BCK` at `j` whose stored
`arg` is `i`.  (The interpreter resumes at `arg + 1` after taking a
jump, so the semantic targets are `j + 1` and `i + 1`.) -/
def PairAt (P : List Op) (i j : Nat) : Prop :=
  i < j ∧
  (∃ o, P.get? i = some o ∧ o.code = .JMP_FWD ∧ o.arg = (j : Int)) ∧
  (∃ b, P.get? j = some b ∧ b.code = .JMP_BCK ∧ b.arg = (i : Int))

/-- Parser-state invariant for the bracket-linking proof: the stack
holds strictly decreasing (top first) indices of `JMP_FWD`
instructions; every `JMP_FWD` is either on the stack or linked in a
pair; every `JMP_BCK` is linked in a pair whose opening index is not
on the stack; and after a `+`/`-` token the last instruction is the
`ADD`/`MINUS` that run-length fusion bumps. -/
def Inv (P : List Op) (stk : List Nat) (prev : Nat) : Prop :=
  stk.Pairwise (fun a b => b < a) ∧
  (∀ e ∈ stk, ∃ o, P.get? e = some o ∧ o.code = .JMP_FWD) ∧
  (∀ i o, P.get? i = some o → o.code = .JMP_FWD → i ∈ stk ∨ ∃ j, PairAt P i j) ∧
  (∀ j b, P.get? j = some b → b.code = .JMP_BCK → ∃ i, PairAt P i j ∧ i ∉ stk) ∧
  ((prev = 43 ∨ prev = 45) → ∃ o, P.getLast? = some o ∧ (o.code = .ADD ∨ o.code = .MINUS))

end BF

/-- The input refuting interpreter/JIT stdout agreement: `+`, then 256
`>`, then `.` (all brackets trivially matched, no strict-mode trap). -/
def c1src : List Nat := 43 :: (List.replicate 256 62 ++ [46])

/-- The spec's scan-loop scenario `+++>+++>+++<<[>]+.` as bytes. -/
def c3src : List Nat := [43, 43, 43, 62, 43, 43, 43, 62, 43, 43, 43, 60, 60, 91, 62, 93, 43, 46]

/-- 127 `+` characters: a single `ADD(127, 0)` whose strict-mode check
fires although the result 0 + 127 = 127 does not cross `INT8_MAX`. -/
def c6src : List Nat := List.replicate 127 43

/-- `[x-]`: the significant characters form the window `[ - ]`, but a
comment byte separates `[` from `-`. -/
def c45src : List Nat := [91, 120, 45, 93]

/-- `>>>+<<<` as bytes. -/
def c9src : List Nat := [62, 62, 62, 43, 60, 60, 60]

/-- 256 nested brackets, fully closed. -/
def nest256 : List Nat := List.replicate 256 91 ++ List.replicate 256 93

/-- 257 nested brackets, fully closed. -/
def nest257 : List Nat := List.replicate 257 91 ++ List.replicate 257 93

set_option maxRecDepth 8000

namespace BF

theorem peek_length : ∀ (s l : List Nat), peek s = some l → l.length ≤ s.length := by
  intro s
  induction s with
  | nil => intro l h; simp [peek] at h
  | cons c cs ih =>
    intro l h
    simp only [peek] at h
    split at h
    · simp at h
    · split at h
      · cases h; exact le_refl _
      · exact (ih l h).trans (Nat.le_succ _)

theorem zwin_length : ∀ (s u : List Nat), zwin s = some u → u.length ≤ s.length := by
  intro s u h
  cases s with
  | nil => simp [zwin] at h
  | cons b s2 =>
    by_cases hb : b = 45
    · cases hpk : peek s2 with
      | none => simp [zwin, hb, hpk] at h
      | some l =>
        cases l with
        | nil => simp [zwin, hb, hpk] at h
        | cons t u2 =>
          by_cases ht : t = 93
          · simp [zwin, hb, hpk, ht] at h
            subst h
            have := peek_length s2 _ hpk
            simp only [List.length_cons] at this ⊢
            omega
          · simp [zwin, hb, hpk, ht] at h
    · simp [zwin, hb] at h

/-! Rewrite lemmas for `parseStep`, one per case of the C `switch`
(plus the comment skip and the run-length fusion short-circuit). -/

theorem parseStep_invalid {ch : Nat} (s : List Nat) (st : ParseSt)
    (hv : is_valid_token ch = false) : parseStep ch s st = .ok (st, s) := by
  simp [parseStep, hv]

theorem parseStep_plus_rep (s : List Nat) (st : ParseSt) (h : st.prevToken = 43) :
    parseStep 43 s st = .ok ({ st with program := bumpLast st.program }, s) := by
  simp [parseStep, h, is_valid_token, is_repeatable_token]

theorem parseStep_plus (s : List Nat) (st : ParseSt) (h : st.prevToken ≠ 43) :
    parseStep 43 s st =
      .ok ({ st with program := st.program ++ [⟨.ADD, 1, st.offset⟩],
                     prevToken := 43, offset := 0 }, s) := by
  simp [parseStep, Ne.symm h, is_valid_token, is_repeatable_token]

theorem parseStep_minus_rep (s : List Nat) (st : ParseSt) (h : st.prevToken = 45) :
    parseStep 45 s st = .ok ({ st with program := bumpLast st.program }, s) := by
  simp [parseStep, h, is_valid_token, is_repeatable_token]

theorem parseStep_minus (s : List Nat) (st : ParseSt) (h : st.prevToken ≠ 45) :
    parseStep 45 s st =
      .ok ({ st with program := st.program ++ [⟨.MINUS, 1, st.offset⟩],
                     prevToken := 45, offset := 0 }, s) := by
  simp [parseStep, Ne.symm h, is_valid_token, is_repeatable_token]

theorem parseStep_lt (s : List Nat) (st : ParseSt) :
    parseStep 60 s st = .ok ({ st with prevToken := 60, offset := st.offset - 1 }, s) := by
  simp [parseStep, is_valid_token, is_repeatable_token]

theorem parseStep_gt (s : List Nat) (st : ParseSt) :
    parseStep 62 s st = .ok ({ st with prevToken := 62, offset := st.offset + 1 }, s) := by
  simp [parseStep, is_valid_token, is_repeatable_token]

theorem parseStep_dot (s : List Nat) (st : ParseSt) :
    parseStep 46 s st =
      .ok ({ st with program := st.program ++ [⟨.PUT, 0, st.offset⟩],
                     prevToken := 46, offset := 0 }, s) := by
  simp [parseStep, is_valid_token, is_repeatable_token]

theorem parseStep_comma (s : List Nat) (st : ParseSt) :
    parseStep 44 s st =
      .ok ({ st with program := st.program ++ [⟨.READ, 0, st.offset⟩],
                     prevToken := 44, offset := 0 }, s) := by
  simp [parseStep, is_valid_token, is_repeatable_token]

theorem parseStep_lbrack_zero {s u : List Nat} (st : ParseSt) (hz : zwin s = some u) :
    parseStep 91 s st =
      .ok ({ st with program := st.program ++ [⟨.ZERO, 0, st.offset⟩],
                     prevToken := 91, offset := 0 }, u) := by
  simp [parseStep, hz, is_valid_token, is_repeatable_token]

theorem parseStep_lbrack_deep {s : List Nat} (st : ParseSt) (hz : zwin s = none)
    (hd : st.stack.length = 256) : parseStep 91 s st = .error .nestingTooDeep := by
  simp [parseStep, hz, hd, is_valid_token, is_repeatable_token]

theorem parseStep_lbrack {s : List Nat} (st : ParseSt) (hz : zwin s = none)
    (hd : st.stack.length ≠ 256) :
    parseStep 91 s st =
      .ok ({ st with program := st.program ++ [⟨.JMP_FWD, 0, st.offset⟩],
                     prevToken := 91, offset := 0,
                     stack := st.program.length :: st.stack }, s) := by
  simp [parseStep, hz, hd, is_valid_token, is_repeatable_token]

theorem parseStep_rbrack_none (s : List Nat) (st : ParseSt) (hs : st.stack = []) :
    parseStep 93 s st = .error .missingOpen := by
  simp [parseStep, hs, is_valid_token, is_repeatable_token]

theorem parseStep_rbrack_seek {jmp_pos : Nat} {stack2 : List Nat} {p : Op}
    (s : List Nat) (st : ParseSt) (hs : st.stack = jmp_pos :: stack2)
    (hl : st.program.getLast? = some p) (hf : p.code = .JMP_FWD) :
    parseStep 93 s st =
      .ok ({ st with program := st.program.dropLast ++ [⟨.ZEROSEEK, st.offset, p.offset⟩],
                     prevToken := 93, offset := 0, stack := stack2 }, s) := by
  simp [parseStep, hs, hl, hf, is_valid_token, is_repeatable_token]

theorem parseStep_rbrack_link {jmp_pos : Nat} {stack2 : List Nat} {p : Op}
    (s : List Nat) (st : ParseSt) (hs : st.stack = jmp_pos :: stack2)
    (hl : st.program.getLast? = some p) (hf : p.code ≠ .JMP_FWD) :
    parseStep 93 s st =
      .ok ({ st with program := backpatch st.program jmp_pos st.program.length ++
                       [⟨.JMP_BCK, (jmp_pos : Int), st.offset⟩],
                     prevToken := 93, offset := 0, stack := stack2 }, s) := by
  simp [parseStep, hs, hl, hf, is_valid_token, is_repeatable_token]

theorem parseStep_rbrack_empty {jmp_pos : Nat} {stack2 : List Nat}
    (s : List Nat) (st : ParseSt) (hs : st.stack = jmp_pos :: stack2)
    (hl : st.program.getLast? = none) :
    parseStep 93 s st =
      .ok ({ st with program := backpatch st.program jmp_pos st.program.length ++
                       [⟨.JMP_BCK, (jmp_pos : Int), st.offset⟩],
                     prevToken := 93, offset := 0, stack := stack2 }, s) := by
  simp [parseStep, hs, hl, is_valid_token, is_repeatable_token]

/-- The eight significant byte values. -/
theorem valid_token_cases {ch : Nat} (hv : is_valid_token ch = true) :
    ch = 43 ∨ ch = 45 ∨ ch = 62 ∨ ch = 60 ∨ ch = 46 ∨ ch = 44 ∨ ch = 91 ∨ ch = 93 := by
  simp only [is_valid_token, Bool.or_eq_true, beq_iff_eq] at hv
  tauto

theorem parseStep_length (ch : Nat) (s : List Nat) (st : ParseSt) (r : ParseSt × List Nat)
    (h : parseStep ch s st = .ok r) : r.2.length ≤ s.length := by
  by_cases hv : is_valid_token ch = false
  · rw [parseStep_invalid s st hv] at h
    cases h; exact le_refl _
  · have hv' : is_valid_token ch = true := by
      cases hb : is_valid_token ch
      · exact absurd hb hv
      · rfl
    rcases valid_token_cases hv' with h0 | h0 | h0 | h0 | h0 | h0 | h0 | h0 <;> subst h0
    · by_cases hp : st.prevToken = 43
      · rw [parseStep_plus_rep s st hp] at h; cases h; exact le_refl _
      · rw [parseStep_plus s st hp] at h; cases h; exact le_refl _
    · by_cases hp : st.prevToken = 45
      · rw [parseStep_minus_rep s st hp] at h; cases h; exact le_refl _
      · rw [parseStep_minus s st hp] at h; cases h; exact le_refl _
    · rw [parseStep_gt s st] at h; cases h; exact le_refl _
    · rw [parseStep_lt s st] at h; cases h; exact le_refl _
    · rw [parseStep_dot s st] at h; cases h; exact le_refl _
    · rw [parseStep_comma s st] at h; cases h; exact le_refl _
    · cases hz : zwin s with
      | some u =>
        rw [parseStep_lbrack_zero st hz] at h; cases h
        exact zwin_length _ _ hz
      | none =>
        by_cases hd : st.stack.length = 256
        · rw [parseStep_lbrack_deep st hz hd] at h; cases h
        · rw [parseStep_lbrack st hz hd] at h; cases h; exact le_refl _
    · cases hs : st.stack with
      | nil => rw [parseStep_rbrack_none s st hs] at h; cases h
      | cons jmp_pos stack2 =>
        cases hl : st.program.getLast? with
        | none => rw [parseStep_rbrack_empty s st hs hl] at h; cases h; exact le_refl _
        | some p =>
          by_cases hf : p.code = .JMP_FWD
          · rw [parseStep_rbrack_seek s st hs hl hf] at h; cases h; exact le_refl _
          · rw [parseStep_rbrack_link s st hs hl hf] at h; cases h; exact le_refl _

theorem parseLoop_fuel : ∀ (f g : Nat) (s : List Nat) (st : ParseSt),
    s.length < f → s.length < g → parseLoop f s st = parseLoop g s st := by
  intro f
  induction f with
  | zero => intro g s st hf _; exact absurd hf (Nat.not_lt_zero _)
  | succ f ih =>
    intro g s st hf hg
    cases g with
    | zero => exact absurd hg (Nat.not_lt_zero _)
    | succ g =>
      cases s with
      | nil => rfl
      | cons ch s =>
        simp only [parseLoop]
        by_cases h0 : ch = 0
        · simp [h0]
        · simp only [h0, if_false]
          cases hps : parseStep ch s st with
          | error e => rfl
          | ok r =>
            obtain ⟨st', s'⟩ := r
            have hlen := parseStep_length ch s st _ hps
            simp only [List.length_cons] at hf hg
            exact ih g s' st' (by simpa using Nat.lt_of_le_of_lt hlen (by omega))
              (by simpa using Nat.lt_of_le_of_lt hlen (by omega))

/-- A `ZEROSEEK` with stride 0 on a nonzero cell never terminates. -/
theorem zeroseekRun_stride_zero (t : Int → Nat) (i : Int) (h : t i ≠ 0) :
    ∀ f, zeroseekRun t 0 f i = none := by
  intro f
  induction f with
  | zero => rfl
  | succ f ih => simp [zeroseekRun, h, ih]

/-- `parseLoop` fails with the nesting error iff the depth scanner
reports a 257th simultaneously open bracket, the parser's stack length
matching the scanner's counter. -/
theorem nest_iff : ∀ (fuel : Nat) (s : List Nat) (st : ParseSt),
    (parseLoop fuel s st = .error .nestingTooDeep ↔
      deep257 fuel s st.stack.length = true) := by
  intro fuel
  induction fuel with
  | zero => intro s st; simp [parseLoop, deep257]
  | succ fuel ih =>
    intro s st
    cases s with
    | nil => simp [parseLoop, deep257]
    | cons ch s =>
      by_cases h0 : ch = 0
      · simp [parseLoop, deep257, h0]
      · by_cases hv : is_valid_token ch = false
        · have h91 : ch ≠ 91 := by rintro rfl; simp [is_valid_token] at hv
          have h93 : ch ≠ 93 := by rintro rfl; simp [is_valid_token] at hv
          simp only [parseLoop, deep257, h0, if_false, if_neg h0, if_neg h91, if_neg h93,
            parseStep_invalid s st hv]
          exact ih s st
        · have hv' : is_valid_token ch = true := by
            cases hb : is_valid_token ch
            · exact absurd hb hv
            · rfl
          rcases valid_token_cases hv' with h1 | h1 | h1 | h1 | h1 | h1 | h1 | h1 <;> subst h1
          · by_cases hp : st.prevToken = 43
            · simp only [parseLoop, deep257, if_neg h0, parseStep_plus_rep s st hp]
              simpa using ih s { st with program := bumpLast st.program }
            · simp only [parseLoop, deep257, if_neg h0, parseStep_plus s st hp]
              simpa using ih s { st with program := st.program ++ [⟨.ADD, 1, st.offset⟩],
                                         prevToken := 43, offset := 0 }
          · by_cases hp : st.prevToken = 45
            · simp only [parseLoop, deep257, if_neg h0, parseStep_minus_rep s st hp]
              simpa using ih s { st with program := bumpLast st.program }
            · simp only [parseLoop, deep257, if_neg h0, parseStep_minus s st hp]
              simpa using ih s { st with program := st.program ++ [⟨.MINUS, 1, st.offset⟩],
                                         prevToken := 45, offset := 0 }
          · simp only [parseLoop, deep257, if_neg h0, parseStep_gt s st]
            simpa using ih s { st with prevToken := 62, offset := st.offset + 1 }
          · simp only [parseLoop, deep257, if_neg h0, parseStep_lt s st]
            simpa using ih s { st with prevToken := 60, offset := st.offset - 1 }
          · simp only [parseLoop, deep257, if_neg h0, parseStep_dot s st]
            simpa using ih s { st with program := st.program ++ [⟨.PUT, 0, st.offset⟩],
                                       prevToken := 46, offset := 0 }
          · simp only [parseLoop, deep257, if_neg h0, parseStep_comma s st]
            simpa using ih s { st with program := st.program ++ [⟨.READ, 0, st.offset⟩],
                                       prevToken := 44, offset := 0 }
          · cases hz : zwin s with
            | some u =>
              simp only [parseLoop, deep257, if_neg h0, parseStep_lbrack_zero st hz, hz]
              simpa using ih u { st with program := st.program ++ [⟨.ZERO, 0, st.offset⟩],
                                         prevToken := 91, offset := 0 }
            | none =>
              by_cases hd : st.stack.length = 256
              · simp [parseLoop, deep257, if_neg h0, parseStep_lbrack_deep st hz hd, hz, hd]
              · simp only [parseLoop, deep257, if_neg h0, parseStep_lbrack st hz hd, hz,
                  if_neg hd]
                simpa using ih s { st with program := st.program ++ [⟨.JMP_FWD, 0, st.offset⟩],
                                           prevToken := 91, offset := 0,
                                           stack := st.program.length :: st.stack }
          · cases hs : st.stack with
            | nil =>
              simp [parseLoop, deep257, if_neg h0, parseStep_rbrack_none s st hs, hs]
            | cons jmp_pos stack2 =>
              have hd0 : st.stack.length ≠ 0 := by simp [hs]
              cases hl : st.program.getLast? with
              | none =>
                simp only [parseLoop, deep257, if_neg h0, parseStep_rbrack_empty s st hs hl,
                  hs, List.length_cons, Nat.add_sub_cancel]
                simpa using ih s { st with
                  program := backpatch st.program jmp_pos st.program.length ++
                    [⟨.JMP_BCK, (jmp_pos : Int), st.offset⟩],
                  prevToken := 93, offset := 0, stack := stack2 }
              | some p =>
                by_cases hf : p.code = .JMP_FWD
                · simp only [parseLoop, deep257, if_neg h0, parseStep_rbrack_seek s st hs hl hf,
                    hs, List.length_cons, Nat.add_sub_cancel]
                  simpa using ih s { st with
                    program := st.program.dropLast ++ [⟨.ZEROSEEK, st.offset, p.offset⟩],
                    prevToken := 93, offset := 0, stack := stack2 }
                · simp only [parseLoop, deep257, if_neg h0, parseStep_rbrack_link s st hs hl hf,
                    hs, List.length_cons, Nat.add_sub_cancel]
                  simpa using ih s { st with
                    program := backpatch st.program jmp_pos st.program.length ++
                      [⟨.JMP_BCK, (jmp_pos : Int), st.offset⟩],
                    prevToken := 93, offset := 0, stack := stack2 }

/-- When the brackets of the input match (`wfScan`) and no 257th
simultaneous bracket occurs (`deep257` is false), `parseLoop` succeeds
and ends with an empty bracket stack. -/
theorem wf_ok : ∀ (fuel : Nat) (s : List Nat) (st : ParseSt),
    wfScan fuel s st.stack.length = true → deep257 fuel s st.stack.length = false →
    ∃ st', parseLoop fuel s st = .ok st' ∧ st'.stack = [] := by
  intro fuel
  induction fuel with
  | zero =>
    intro s st hw _
    refine ⟨st, rfl, ?_⟩
    simp only [wfScan, beq_iff_eq] at hw
    exact List.length_eq_zero.mp hw
  | succ fuel ih =>
    intro s st hw hd
    cases s with
    | nil =>
      refine ⟨st, rfl, ?_⟩
      simp only [wfScan, beq_iff_eq] at hw
      exact List.length_eq_zero.mp hw
    | cons ch s =>
      by_cases h0 : ch = 0
      · simp only [wfScan, if_pos h0, beq_iff_eq] at hw
        exact ⟨st, by simp [parseLoop, h0], List.length_eq_zero.mp hw⟩
      · by_cases hv : is_valid_token ch = false
        · have h91 : ch ≠ 91 := by rintro rfl; simp [is_valid_token] at hv
          have h93 : ch ≠ 93 := by rintro rfl; simp [is_valid_token] at hv
          simp only [wfScan, deep257, if_neg h0, if_neg h91, if_neg h93] at hw hd
          obtain ⟨st', h1, h2⟩ := ih s st hw hd
          exact ⟨st', by simp [parseLoop, if_neg h0, parseStep_invalid s st hv, h1], h2⟩
        · have hv' : is_valid_token ch = true := by
            cases hb : is_valid_token ch
            · exact absurd hb hv
            · rfl
          rcases valid_token_cases hv' with h1 | h1 | h1 | h1 | h1 | h1 | h1 | h1 <;> subst h1
          · simp only [wfScan, deep257, if_neg h0] at hw hd
            norm_num at hw hd
            by_cases hp : st.prevToken = 43
            · obtain ⟨st', ha, hb⟩ := ih s { st with program := bumpLast st.program } hw hd
              exact ⟨st', by simp [parseLoop, if_neg h0, parseStep_plus_rep s st hp, ha], hb⟩
            · obtain ⟨st', ha, hb⟩ := ih s
                { st with program := st.program ++ [⟨.ADD, 1, st.offset⟩],
                          prevToken := 43, offset := 0 } hw hd
              exact ⟨st', by simp [parseLoop, if_neg h0, parseStep_plus s st hp, ha], hb⟩
          · simp only [wfScan, deep257, if_neg h0] at hw hd
            norm_num at hw hd
            by_cases hp : st.prevToken = 45
            · obtain ⟨st', ha, hb⟩ := ih s { st with program := bumpLast st.program } hw hd
              exact ⟨st', by simp [parseLoop, if_neg h0, parseStep_minus_rep s st hp, ha], hb⟩
            · obtain ⟨st', ha, hb⟩ := ih s
                { st with program := st.program ++ [⟨.MINUS, 1, st.offset⟩],
                          prevToken := 45, offset := 0 } hw hd
              exact ⟨st', by simp [parseLoop, if_neg h0, parseStep_minus s st hp, ha], hb⟩
          · simp only [wfScan, deep257, if_neg h0] at hw hd
            norm_num at hw hd
            obtain ⟨st', ha, hb⟩ := ih s { st with prevToken := 62, offset := st.offset + 1 } hw hd
            exact ⟨st', by simp [parseLoop, if_neg h0, parseStep_gt s st, ha], hb⟩
          · simp only [wfScan, deep257, if_neg h0] at hw hd
            norm_num at hw hd
            obtain ⟨st', ha, hb⟩ := ih s { st with prevToken := 60, offset := st.offset - 1 } hw hd
            exact ⟨st', by simp [parseLoop, if_neg h0, parseStep_lt s st, ha], hb⟩
          · simp only [wfScan, deep257, if_neg h0] at hw hd
            norm_num at hw hd
            obtain ⟨st', ha, hb⟩ := ih s
              { st with program := st.program ++ [⟨.PUT, 0, st.offset⟩],
                        prevToken := 46, offset := 0 } hw hd
            exact ⟨st', by simp [parseLoop, if_neg h0, parseStep_dot s st, ha], hb⟩
          · simp only [wfScan, deep257, if_neg h0] at hw hd
            norm_num at hw hd
            obtain ⟨st', ha, hb⟩ := ih s
              { st with program := st.program ++ [⟨.READ, 0, st.offset⟩],
                        prevToken := 44, offset := 0 } hw hd
            exact ⟨st', by simp [parseLoop, if_neg h0, parseStep_comma s st, ha], hb⟩
          · cases hz : zwin s with
            | some u =>
              simp only [wfScan, deep257, if_neg h0, hz] at hw hd
              norm_num at hw hd
              obtain ⟨st', ha, hb⟩ := ih u
                { st with program := st.program ++ [⟨.ZERO, 0, st.offset⟩],
                          prevToken := 91, offset := 0 } hw hd
              exact ⟨st', by simp [parseLoop, if_neg h0, parseStep_lbrack_zero st hz, ha], hb⟩
            | none =>
              by_cases hcap : st.stack.length = 256
              · simp only [wfScan, deep257, if_neg h0, hz, if_pos hcap] at hd
                norm_num at hd
              · simp only [wfScan, deep257, if_neg h0, hz, if_neg hcap] at hw hd
                norm_num at hw hd
                have := ih s { st with program := st.program ++ [⟨.JMP_FWD, 0, st.offset⟩],
                                       prevToken := 91, offset := 0,
                                       stack := st.program.length :: st.stack }
                simp only [List.length_cons] at this
                obtain ⟨st', ha, hb⟩ := this hw hd
                exact ⟨st', by simp [parseLoop, if_neg h0, parseStep_lbrack st hz hcap, ha], hb⟩
          · cases hs : st.stack with
            | nil =>
              simp only [wfScan, if_neg h0, hs, List.length_nil] at hw
              norm_num at hw
            | cons jmp_pos stack2 =>
              simp only [wfScan, deep257, if_neg h0, hs, List.length_cons,
                Nat.add_sub_cancel] at hw hd
              norm_num at hw hd
              cases hl : st.program.getLast? with
              | none =>
                obtain ⟨st', ha, hb⟩ := ih s { st with
                  program := backpatch st.program jmp_pos st.program.length ++
                    [⟨.JMP_BCK, (jmp_pos : Int), st.offset⟩],
                  prevToken := 93, offset := 0, stack := stack2 } hw hd
                exact ⟨st',
                  by simp [parseLoop, if_neg h0, parseStep_rbrack_empty s st hs hl, ha], hb⟩
              | some p =>
                by_cases hf : p.code = .JMP_FWD
                · obtain ⟨st', ha, hb⟩ := ih s { st with
                    program := st.program.dropLast ++ [⟨.ZEROSEEK, st.offset, p.offset⟩],
                    prevToken := 93, offset := 0, stack := stack2 } hw hd
                  exact ⟨st',
                    by simp [parseLoop, if_neg h0, parseStep_rbrack_seek s st hs hl hf, ha], hb⟩
                · obtain ⟨st', ha, hb⟩ := ih s { st with
                    program := backpatch st.program jmp_pos st.program.length ++
                      [⟨.JMP_BCK, (jmp_pos : Int), st.offset⟩],
                    prevToken := 93, offset := 0, stack := stack2 } hw hd
                  exact ⟨st',
                    by simp [parseLoop, if_neg h0, parseStep_rbrack_link s st hs hl hf, ha], hb⟩

/-! Lemmas about appending a trailing block `m` of `>`/`<` and comment
bytes: such a block changes only `offset` and `prevToken`, never the
program or the stack, and cannot complete a clear-cell window. -/

theorem peek_shape {x l : List Nat} (h : peek x = some l) :
    ∃ t u, l = t :: u ∧ is_valid_token t = true := by
  induction x with
  | nil => simp [peek] at h
  | cons c cs ih =>
    simp only [peek] at h
    split at h
    · simp at h
    · split at h
      · cases h
        exact ⟨c, cs, rfl, by assumption⟩
      · exact ih h

theorem peek_mem {x l : List Nat} (h : peek x = some l) : ∀ c ∈ l, c ∈ x := by
  induction x with
  | nil => simp [peek] at h
  | cons c cs ih =>
    simp only [peek] at h
    split at h
    · simp at h
    · split at h
      · cases h
        intro d hd
        exact hd
      · intro d hd
        exact List.mem_cons_of_mem c (ih h d hd)

theorem peek_append_some {x l : List Nat} (m : List Nat) (h : peek x = some l) :
    peek (x ++ m) = some (l ++ m) := by
  induction x with
  | nil => simp [peek] at h
  | cons c cs ih =>
    simp only [peek] at h
    split at h
    · simp at h
    · split at h
      · cases h
        simp only [List.cons_append, peek]
        rw [if_neg (by assumption), if_pos (by assumption)]
        rfl
      · simp only [List.cons_append, peek]
        rw [if_neg (by assumption), if_neg (by assumption)]
        exact ih h

theorem peek_none_append {x : List Nat} (m : List Nat) (h : peek x = none) :
    peek (x ++ m) = none ∨ peek (x ++ m) = peek m := by
  induction x with
  | nil => right; rfl
  | cons c cs ih =>
    simp only [peek] at h
    by_cases h0 : c = 0
    · left
      simp [peek, h0]
    · rw [if_neg h0] at h
      split at h
      · simp at h
      · simp only [List.cons_append, peek]
        rw [if_neg h0, if_neg (by assumption)]
        exact ih h

theorem zwin_append {x : List Nat} (m : List Nat)
    (hm : ∀ c ∈ m, is_valid_token c = true → c = 62 ∨ c = 60) :
    (zwin x = none → zwin (x ++ m) = none) ∧
    (∀ u, zwin x = some u → zwin (x ++ m) = some (u ++ m)) := by
  have hm45 : ∀ l, peek m = some l → ∃ t u2, l = t :: u2 ∧ t ≠ 93 ∧ t ≠ 45 := by
    intro l hpl
    obtain ⟨t, u2, rfl, hvt⟩ := peek_shape hpl
    have htm : t ∈ m := peek_mem hpl t (by simp)
    rcases hm t htm hvt with h | h <;> subst h <;> exact ⟨_, u2, rfl, by omega, by omega⟩
  cases x with
  | nil =>
    constructor
    · intro _
      cases m with
      | nil => rfl
      | cons c m2 =>
        have hc : c ≠ 45 := by
          intro hc
          subst hc
          rcases hm 45 (by simp) (by simp [is_valid_token]) with h | h <;> omega
        simp [zwin, hc]
    · intro u h
      simp [zwin] at h
  | cons b x2 =>
    by_cases hb : b = 45
    · subst hb
      cases hpk : peek x2 with
      | none =>
        constructor
        · intro _
          rcases peek_none_append m hpk with h | h
          · simp [zwin, h]
          · cases hpm : peek m with
            | none => simp [zwin, h, hpm]
            | some l =>
              obtain ⟨t, u2, rfl, ht93, _⟩ := hm45 l hpm
              simp [zwin, h, hpm, ht93]
        · intro u h
          simp [zwin, hpk] at h
      | some l =>
        obtain ⟨t, u2, rfl, hvt⟩ := peek_shape hpk
        have := peek_append_some m hpk
        by_cases ht : t = 93
        · constructor
          · intro h
            simp [zwin, hpk, ht] at h
          · intro u h
            simp only [zwin, hpk, ht, if_pos, if_true] at h
            simp only [Option.some.injEq] at h
            subst h
            simp [zwin, this, ht]
        · constructor
          · intro _
            simp [zwin, this, ht]
          · intro u h
            simp [zwin, hpk, ht] at h
    · constructor
      · intro _
        simp [zwin, hb]
      · intro u h
        simp [zwin, hb] at h

/-- Processing a block of `>`/`<` and comment bytes leaves the program
and the bracket stack unchanged. -/
theorem moves_loop : ∀ (m : List Nat) (fuel : Nat) (st : ParseSt),
    (∀ c ∈ m, is_valid_token c = true → c = 62 ∨ c = 60) →
    ∃ st', parseLoop fuel m st = .ok st' ∧
      st'.program = st.program ∧ st'.stack = st.stack := by
  intro m
  induction m with
  | nil =>
    intro fuel st _
    cases fuel with
    | zero => exact ⟨st, rfl, rfl, rfl⟩
    | succ fuel => exact ⟨st, rfl, rfl, rfl⟩
  | cons c m2 ih =>
    intro fuel st hm
    cases fuel with
    | zero => exact ⟨st, rfl, rfl, rfl⟩
    | succ fuel =>
      by_cases h0 : c = 0
      · exact ⟨st, by simp [parseLoop, h0], rfl, rfl⟩
      · have hm2 : ∀ d ∈ m2, is_valid_token d = true → d = 62 ∨ d = 60 := by
          intro d hd
          exact hm d (List.mem_cons_of_mem c hd)
        by_cases hv : is_valid_token c = false
        · obtain ⟨st', ha, hb, hc⟩ := ih fuel st hm2
          exact ⟨st', by simp [parseLoop, if_neg h0, parseStep_invalid m2 st hv, ha], hb, hc⟩
        · have hv' : is_valid_token c = true := by
            cases hx : is_valid_token c
            · exact absurd hx hv
            · rfl
          rcases hm c (by simp) hv' with hc | hc <;> subst hc
          · obtain ⟨st', ha, hb, hcc⟩ :=
              ih fuel { st with prevToken := 62, offset := st.offset + 1 } hm2
            exact ⟨st', by simp [parseLoop, if_neg h0, parseStep_gt m2 st, ha], hb, hcc⟩
          · obtain ⟨st', ha, hb, hcc⟩ :=
              ih fuel { st with prevToken := 60, offset := st.offset - 1 } hm2
            exact ⟨st', by simp [parseLoop, if_neg h0, parseStep_lt m2 st, ha], hb, hcc⟩

/-- Appending a trailing block of `>`/`<` and comments to any input
changes neither the outcome kind, nor the emitted program, nor the
final stack of the parser loop. -/
theorem parseLoop_append_moves (m : List Nat)
    (hm : ∀ c ∈ m, is_valid_token c = true → c = 62 ∨ c = 60) :
    ∀ (n : Nat) (s : List Nat) (st : ParseSt), s.length ≤ n →
    (∀ e, parseLoop ((s ++ m).length + 1) (s ++ m) st = .error e ↔
          parseLoop (s.length + 1) s st = .error e) ∧
    (∀ st1, parseLoop ((s ++ m).length + 1) (s ++ m) st = .ok st1 →
       ∃ st2, parseLoop (s.length + 1) s st = .ok st2 ∧
         st1.program = st2.program ∧ st1.stack = st2.stack) := by
  intro n
  induction n with
  | zero =>
    intro s st hn
    have hs : s = [] := List.length_eq_zero.mp (Nat.le_zero.mp hn)
    subst hs
    obtain ⟨st', ha, hb, hc⟩ := moves_loop m (([] ++ m).length + 1) st hm
    refine ⟨?_, ?_⟩
    · intro e
      simp only [List.nil_append] at ha ⊢
      rw [ha]
      simp [parseLoop]
    · intro st1 h1
      simp only [List.nil_append] at ha h1
      rw [ha] at h1
      cases h1
      exact ⟨st, rfl, hb, hc⟩
  | succ n ih =>
    intro s st hn
    cases s with
    | nil => exact ih [] st (Nat.zero_le _)
    | cons ch s2 =>
      have hn2 : s2.length ≤ n := by simpa using hn
      -- one step on both sides
      by_cases h0 : ch = 0
      · refine ⟨?_, ?_⟩
        · intro e
          simp [parseLoop, h0]
        · intro st1 h1
          simp only [List.cons_append, parseLoop, if_pos h0] at h1
          cases h1
          exact ⟨st, by simp [parseLoop, h0], rfl, rfl⟩
      · -- helper to finish all cases where parseStep yields the same state
        -- and the continuation  s2  (resp.  s2 ++ m )
        have main : ∀ (st' : ParseSt),
            parseStep ch s2 st = .ok (st', s2) →
            parseStep ch (s2 ++ m) st = .ok (st', s2 ++ m) →
            (∀ e, parseLoop (((ch :: s2) ++ m).length + 1) ((ch :: s2) ++ m) st = .error e ↔
                parseLoop ((ch :: s2).length + 1) (ch :: s2) st = .error e) ∧
            (∀ st1,
               parseLoop (((ch :: s2) ++ m).length + 1) ((ch :: s2) ++ m) st = .ok st1 →
               ∃ st2, parseLoop ((ch :: s2).length + 1) (ch :: s2) st = .ok st2 ∧
                 st1.program = st2.program ∧ st1.stack = st2.stack) := by
          intro st' hstep hstepm
          have e1 : parseLoop (((ch :: s2) ++ m).length + 1) ((ch :: s2) ++ m) st =
              parseLoop ((s2 ++ m).length + 1) (s2 ++ m) st' := by
            simp only [List.cons_append, parseLoop, if_neg h0, List.append_eq, hstepm]
            exact parseLoop_fuel _ _ _ _ (by simp) (by simp)
          have e2 : parseLoop ((ch :: s2).length + 1) (ch :: s2) st =
              parseLoop (s2.length + 1) s2 st' := by
            simp only [parseLoop, if_neg h0, hstep]
            exact parseLoop_fuel _ _ _ _ (by simp) (by simp)
          rw [e1, e2]
          exact ih s2 st' hn2
        by_cases hv : is_valid_token ch = false
        · exact main st (parseStep_invalid s2 st hv) (parseStep_invalid (s2 ++ m) st hv)
        · have hv' : is_valid_token ch = true := by
            cases hx : is_valid_token ch
            · exact absurd hx hv
            · rfl
          rcases valid_token_cases hv' with h1 | h1 | h1 | h1 | h1 | h1 | h1 | h1 <;> subst h1
          · by_cases hp : st.prevToken = 43
            · exact main _ (parseStep_plus_rep s2 st hp) (parseStep_plus_rep (s2 ++ m) st hp)
            · exact main _ (parseStep_plus s2 st hp) (parseStep_plus (s2 ++ m) st hp)
          · by_cases hp : st.prevToken = 45
            · exact main _ (parseStep_minus_rep s2 st hp) (parseStep_minus_rep (s2 ++ m) st hp)
            · exact main _ (parseStep_minus s2 st hp) (parseStep_minus (s2 ++ m) st hp)
          · exact main _ (parseStep_gt s2 st) (parseStep_gt (s2 ++ m) st)
          · exact main _ (parseStep_lt s2 st) (parseStep_lt (s2 ++ m) st)
          · exact main _ (parseStep_dot s2 st) (parseStep_dot (s2 ++ m) st)
          · exact main _ (parseStep_comma s2 st) (parseStep_comma (s2 ++ m) st)
          · cases hz : zwin s2 with
            | some u =>
              have hzm := (zwin_append m hm).2 u hz
              have hul : u.length ≤ s2.length := zwin_length _ _ hz
              have e1 : parseLoop (((91 :: s2) ++ m).length + 1) ((91 :: s2) ++ m) st =
                  parseLoop ((u ++ m).length + 1) (u ++ m)
                    { st with program := st.program ++ [⟨.ZERO, 0, st.offset⟩],
                              prevToken := 91, offset := 0 } := by
                simp only [List.cons_append, parseLoop, if_neg h0, List.append_eq,
                  parseStep_lbrack_zero st hzm]
                exact parseLoop_fuel _ _ _ _ (by simp; omega) (by simp)
              have e2 : parseLoop ((91 :: s2).length + 1) (91 :: s2) st =
                  parseLoop (u.length + 1) u
                    { st with program := st.program ++ [⟨.ZERO, 0, st.offset⟩],
                              prevToken := 91, offset := 0 } := by
                simp only [parseLoop, if_neg h0, parseStep_lbrack_zero st hz]
                exact parseLoop_fuel _ _ _ _ (by simp; omega) (by simp)
              rw [e1, e2]
              exact ih u _ (by omega)
            | none =>
              have hzm := (zwin_append m hm).1 hz
              by_cases hd : st.stack.length = 256
              · refine ⟨?_, ?_⟩
                · intro e
                  simp only [List.cons_append, parseLoop, if_neg h0, List.append_eq,
                    parseStep_lbrack_deep st hz hd, parseStep_lbrack_deep st hzm hd]
                · intro st1 h1
                  simp only [List.cons_append, parseLoop, if_neg h0, List.append_eq,
                    parseStep_lbrack_deep st hzm hd] at h1
                  cases h1
              · exact main _ (parseStep_lbrack st hz hd) (parseStep_lbrack st hzm hd)
          · cases hs : st.stack with
            | nil =>
              refine ⟨?_, ?_⟩
              · intro e
                simp only [List.cons_append, parseLoop, if_neg h0, List.append_eq,
                  parseStep_rbrack_none s2 st hs, parseStep_rbrack_none (s2 ++ m) st hs]
              · intro st1 h1
                simp only [List.cons_append, parseLoop, if_neg h0, List.append_eq,
                  parseStep_rbrack_none (s2 ++ m) st hs] at h1
                cases h1
            | cons jmp_pos stack2 =>
              cases hl : st.program.getLast? with
              | none =>
                exact main _ (parseStep_rbrack_empty s2 st hs hl)
                  (parseStep_rbrack_empty (s2 ++ m) st hs hl)
              | some p =>
                by_cases hf : p.code = .JMP_FWD
                · exact main _ (parseStep_rbrack_seek s2 st hs hl hf)
                    (parseStep_rbrack_seek (s2 ++ m) st hs hl hf)
                · exact main _ (parseStep_rbrack_link s2 st hs hl hf)
                    (parseStep_rbrack_link (s2 ++ m) st hs hl hf)

/-! Lemmas for the bracket-linking invariant (`Inv`). -/

theorem get?_lt {α : Type} {l : List α} {n : Nat} {a : α} (h : l.get? n = some a) :
    n < l.length := by
  by_contra hn
  rw [List.get?_eq_none.mpr (by omega)] at h
  cases h

theorem get?_set_self {l : List Op} {i : Nat} {v : Op} (h : i < l.length) :
    (l.set i v).get? i = some v := by
  rw [List.get?_set_eq]
  cases hq : l.get? i with
  | none => rw [List.get?_eq_none] at hq; omega
  | some x => rfl

theorem eq_dropLast_concat {l : List Op} {p : Op} (h : l.getLast? = some p) :
    l = l.dropLast ++ [p] := by
  induction l using List.reverseRecOn with
  | nil => simp at h
  | append_singleton Q a _ =>
    rw [List.getLast?_concat] at h
    cases h
    rw [List.dropLast_concat]

theorem getLast?_none {l : List Op} (h : l.getLast? = none) : l = [] := by
  induction l using List.reverseRecOn with
  | nil => rfl
  | append_singleton Q a _ => rw [List.getLast?_concat] at h; cases h

theorem PairAt_append {P l : List Op} {i j : Nat} (h : PairAt P i j) :
    PairAt (P ++ l) i j := by
  obtain ⟨hij, ⟨o, ho, hoc, hoa⟩, ⟨b, hb, hbc, hba⟩⟩ := h
  exact ⟨hij, ⟨o, by rw [List.get?_append (get?_lt ho)]; exact ho, hoc, hoa⟩,
         ⟨b, by rw [List.get?_append (get?_lt hb)]; exact hb, hbc, hba⟩⟩

theorem PairAt_swap_last {Q : List Op} {o o2 : Op} {i j : Nat}
    (h : PairAt (Q ++ [o]) i j) (hj : j ≠ Q.length) : PairAt (Q ++ [o2]) i j := by
  obtain ⟨hij, ⟨oi, hoi, hic, hia⟩, ⟨bj, hbj, hjc, hja⟩⟩ := h
  have hjl : j < Q.length := by
    have := get?_lt hbj
    simp only [List.length_append, List.length_cons, List.length_nil] at this
    omega
  have hil : i < Q.length := by omega
  rw [List.get?_append hil] at hoi
  rw [List.get?_append hjl] at hbj
  exact ⟨hij, ⟨oi, by rw [List.get?_append hil]; exact hoi, hic, hia⟩,
         ⟨bj, by rw [List.get?_append hjl]; exact hbj, hjc, hja⟩⟩

theorem PairAt_set_append {P : List Op} {j0 : Nat} {o' : Op} {l : List Op} {i j : Nat}
    (h : PairAt P i j) (hi : i ≠ j0) (hj : j ≠ j0) :
    PairAt (P.set j0 o' ++ l) i j := by
  obtain ⟨hij, ⟨oi, hoi, hic, hia⟩, ⟨bj, hbj, hjc, hja⟩⟩ := h
  have hil : i < P.length := get?_lt hoi
  have hjl : j < P.length := get?_lt hbj
  refine ⟨hij, ⟨oi, ?_, hic, hia⟩, ⟨bj, ?_, hjc, hja⟩⟩
  · rw [List.get?_append (by rw [List.length_set]; exact hil),
      List.get?_set_ne _ _ (Ne.symm hi)]
    exact hoi
  · rw [List.get?_append (by rw [List.length_set]; exact hjl),
      List.get?_set_ne _ _ (Ne.symm hj)]
    exact hbj

/-- Appending a non-jump op preserves the invariant. -/
theorem Inv_append {P : List Op} {stk : List Nat} {prev : Nat} (hI : Inv P stk prev)
    (o : Op) (prev' : Nat) (hf : o.code ≠ .JMP_FWD) (hb : o.code ≠ .JMP_BCK)
    (hD : (prev' = 43 ∨ prev' = 45) → o.code = .ADD ∨ o.code = .MINUS) :
    Inv (P ++ [o]) stk prev' := by
  obtain ⟨A1, A2, B, C, _⟩ := hI
  refine ⟨A1, ?_, ?_, ?_, ?_⟩
  · intro e he
    obtain ⟨o', ho', hc'⟩ := A2 e he
    exact ⟨o', by rw [List.get?_append (get?_lt ho')]; exact ho', hc'⟩
  · intro i oi hoi hci
    by_cases hi : i < P.length
    · rw [List.get?_append hi] at hoi
      rcases B i oi hoi hci with h | ⟨j, hp⟩
      · exact Or.inl h
      · exact Or.inr ⟨j, PairAt_append hp⟩
    · by_cases hieq : i = P.length
      · subst hieq
        rw [List.get?_concat_length] at hoi
        cases hoi
        exact absurd hci hf
      · rw [List.get?_eq_none.mpr (by simp; omega)] at hoi
        cases hoi
  · intro j bj hbj hcj
    by_cases hj : j < P.length
    · rw [List.get?_append hj] at hbj
      obtain ⟨i, hp, hni⟩ := C j bj hbj hcj
      exact ⟨i, PairAt_append hp, hni⟩
    · by_cases hjeq : j = P.length
      · subst hjeq
        rw [List.get?_concat_length] at hbj
        cases hbj
        exact absurd hcj hb
      · rw [List.get?_eq_none.mpr (by simp; omega)] at hbj
        cases hbj
  · intro hp'
    exact ⟨o, List.getLast?_concat _, hD hp'⟩

/-- Changing `prev_token` to a non-fusing value preserves the invariant. -/
theorem Inv_prev {P : List Op} {stk : List Nat} {prev : Nat} (hI : Inv P stk prev)
    (prev' : Nat) (h43 : prev' ≠ 43) (h45 : prev' ≠ 45) : Inv P stk prev' := by
  obtain ⟨A1, A2, B, C, _⟩ := hI
  refine ⟨A1, A2, B, C, ?_⟩
  rintro (h | h)
  · exact absurd h h43
  · exact absurd h h45

/-- Run-length fusion bumps the `arg` of the trailing `ADD`/`MINUS`;
code fields and all other positions are untouched. -/
theorem Inv_bumpLast {P : List Op} {stk : List Nat} {prev : Nat} (hI : Inv P stk prev)
    (hprev : prev = 43 ∨ prev = 45) : Inv (bumpLast P) stk prev := by
  obtain ⟨A1, A2, B, C, D⟩ := hI
  obtain ⟨o, hlast, hcode⟩ := D hprev
  have hPd := eq_dropLast_concat hlast
  have hbl : bumpLast P = P.dropLast ++ [{ o with arg := o.arg + 1 }] := by
    rw [bumpLast, hlast]
  have hQlen : P.length = P.dropLast.length + 1 := by
    conv_lhs => rw [hPd]
    simp
  have hoQ : P.get? P.dropLast.length = some o := by
    have h1 : (P.dropLast ++ [o]).get? P.dropLast.length = some o :=
      List.get?_concat_length _ _
    rw [← hPd] at h1
    exact h1
  have hocode : o.code ≠ .JMP_FWD ∧ o.code ≠ .JMP_BCK := by
    rcases hcode with h | h <;> rw [h] <;> exact ⟨by simp, by simp⟩
  have hget : ∀ n, n ≠ P.dropLast.length → (bumpLast P).get? n = P.get? n := by
    intro n hn
    by_cases hlt : n < P.dropLast.length
    · rw [hbl, List.get?_append hlt]
      conv_rhs => rw [hPd]
      rw [List.get?_append hlt]
    · rw [hbl, List.get?_eq_none.mpr (by simp; omega)]
      conv_rhs => rw [hPd]
      rw [List.get?_eq_none.mpr (by simp; omega)]
  refine ⟨A1, ?_, ?_, ?_, ?_⟩
  · intro e he
    obtain ⟨o', ho', hc'⟩ := A2 e he
    have hne : e ≠ P.dropLast.length := by
      intro h
      subst h
      rw [hoQ] at ho'
      cases ho'
      exact hocode.1 hc'
    exact ⟨o', by rw [hget e hne]; exact ho', hc'⟩
  · intro i oi hoi hci
    have hne : i ≠ P.dropLast.length := by
      intro h
      subst h
      rw [hbl, List.get?_concat_length] at hoi
      cases hoi
      exact hocode.1 hci
    rw [hget i hne] at hoi
    rcases B i oi hoi hci with h | ⟨j, hp⟩
    · exact Or.inl h
    · right
      refine ⟨j, ?_⟩
      have hjne : j ≠ P.dropLast.length := by
        intro h
        subst h
        obtain ⟨_, _, ⟨b2, hb2, hbc2, _⟩⟩ := hp
        rw [hoQ] at hb2
        cases hb2
        exact hocode.2 hbc2
      rw [hbl]
      exact PairAt_swap_last (hPd ▸ hp) hjne
  · intro j bj hbj hcj
    have hne : j ≠ P.dropLast.length := by
      intro h
      subst h
      rw [hbl, List.get?_concat_length] at hbj
      cases hbj
      exact hocode.2 hcj
    rw [hget j hne] at hbj
    obtain ⟨i, hp, hni⟩ := C j bj hbj hcj
    refine ⟨i, ?_, hni⟩
    rw [hbl]
    exact PairAt_swap_last (hPd ▸ hp) hne
  · intro hp'
    exact ⟨{ o with arg := o.arg + 1 }, by rw [hbl]; exact List.getLast?_concat _, hcode⟩

/-- Emitting a `JMP_FWD` and pushing its index preserves the invariant. -/
theorem Inv_push {P : List Op} {stk : List Nat} {prev : Nat} (hI : Inv P stk prev)
    (off : Int) :
    Inv (P ++ [⟨.JMP_FWD, 0, off⟩]) (P.length :: stk) 91 := by
  obtain ⟨A1, A2, B, C, _⟩ := hI
  have hbound : ∀ e ∈ stk, e < P.length := by
    intro e he
    obtain ⟨o', ho', _⟩ := A2 e he
    exact get?_lt ho'
  refine ⟨?_, ?_, ?_, ?_, ?_⟩
  · exact List.Pairwise.cons hbound A1
  · intro e he
    rcases List.mem_cons.mp he with he | he
    · subst he
      exact ⟨⟨.JMP_FWD, 0, off⟩, List.get?_concat_length _ _, rfl⟩
    · obtain ⟨o', ho', hc'⟩ := A2 e he
      exact ⟨o', by rw [List.get?_append (get?_lt ho')]; exact ho', hc'⟩
  · intro i oi hoi hci
    by_cases hi : i < P.length
    · rw [List.get?_append hi] at hoi
      rcases B i oi hoi hci with h | ⟨j, hp⟩
      · exact Or.inl (List.mem_cons_of_mem _ h)
      · exact Or.inr ⟨j, PairAt_append hp⟩
    · by_cases hieq : i = P.length
      · subst hieq
        exact Or.inl (List.mem_cons_self _ _)
      · rw [List.get?_eq_none.mpr (by simp; omega)] at hoi
        cases hoi
  · intro j bj hbj hcj
    by_cases hj : j < P.length
    · rw [List.get?_append hj] at hbj
      obtain ⟨i, hp, hni⟩ := C j bj hbj hcj
      refine ⟨i, PairAt_append hp, ?_⟩
      intro hmem
      rcases List.mem_cons.mp hmem with h | h
      · obtain ⟨hij, _, ⟨b2, hb2, _, _⟩⟩ := hp
        have := get?_lt hb2
        omega
      · exact hni h
    · by_cases hjeq : j = P.length
      · subst hjeq
        rw [List.get?_concat_length] at hbj
        cases hbj
        cases hcj
      · rw [List.get?_eq_none.mpr (by simp; omega)] at hbj
        cases hbj
  · rintro (h | h) <;> omega

/-- The scan-loop collapse: pop the just-pushed `JMP_FWD` (necessarily
the last op and the top of the stack) and replace it with a non-jump
op. -/
theorem Inv_seek {Q : List Op} {p : Op} {j0 : Nat} {stk2 : List Nat} {prev : Nat}
    (hI : Inv (Q ++ [p]) (j0 :: stk2) prev) (hpf : p.code = .JMP_FWD) (z : Op)
    (hzf : z.code ≠ .JMP_FWD) (hzb : z.code ≠ .JMP_BCK) :
    Inv (Q ++ [z]) stk2 93 := by
  obtain ⟨A1, A2, B, C, _⟩ := hI
  have hlenQ : (Q ++ [p]).length = Q.length + 1 := by simp
  have hj0 : j0 = Q.length := by
    obtain ⟨o0, ho0, _⟩ := A2 j0 (List.mem_cons_self _ _)
    have hlt := get?_lt ho0
    rw [hlenQ] at hlt
    have hpQ : (Q ++ [p]).get? Q.length = some p := List.get?_concat_length _ _
    rcases B Q.length p hpQ hpf with hmem | ⟨j, hp⟩
    · rcases List.mem_cons.mp hmem with h | h
      · omega
      · have := (List.pairwise_cons.mp A1).1 Q.length h
        omega
    · obtain ⟨hij, _, ⟨b2, hb2, _, _⟩⟩ := hp
      have := get?_lt hb2
      rw [hlenQ] at this
      omega
  subst hj0
  refine ⟨(List.pairwise_cons.mp A1).2, ?_, ?_, ?_, ?_⟩
  · intro e he
    have helt : e < Q.length := (List.pairwise_cons.mp A1).1 e he
    obtain ⟨o', ho', hc'⟩ := A2 e (List.mem_cons_of_mem _ he)
    rw [List.get?_append helt] at ho'
    exact ⟨o', by rw [List.get?_append helt]; exact ho', hc'⟩
  · intro i oi hoi hci
    have hilen := get?_lt hoi
    simp only [List.length_append, List.length_cons, List.length_nil] at hilen
    by_cases hi : i < Q.length
    · rw [List.get?_append hi] at hoi
      have hoi' : (Q ++ [p]).get? i = some oi := by rw [List.get?_append hi]; exact hoi
      rcases B i oi hoi' hci with hmem | ⟨j, hp⟩
      · rcases List.mem_cons.mp hmem with h | h
        · omega
        · exact Or.inl h
      · right
        refine ⟨j, PairAt_swap_last hp ?_⟩
        intro hje
        obtain ⟨_, _, ⟨b2, hb2, hbc2, _⟩⟩ := hp
        subst hje
        rw [List.get?_concat_length] at hb2
        cases hb2
        rw [hpf] at hbc2
        cases hbc2
    · have hieq : i = Q.length := by omega
      subst hieq
      rw [List.get?_concat_length] at hoi
      cases hoi
      exact absurd hci hzf
  · intro j bj hbj hcj
    have hjlen := get?_lt hbj
    simp only [List.length_append, List.length_cons, List.length_nil] at hjlen
    by_cases hj : j < Q.length
    · rw [List.get?_append hj] at hbj
      have hbj' : (Q ++ [p]).get? j = some bj := by rw [List.get?_append hj]; exact hbj
      obtain ⟨i, hp, hni⟩ := C j bj hbj' hcj
      refine ⟨i, PairAt_swap_last hp (by omega), ?_⟩
      intro hm
      exact hni (List.mem_cons_of_mem _ hm)
    · have hjeq : j = Q.length := by omega
      subst hjeq
      rw [List.get?_concat_length] at hbj
      cases hbj
      exact absurd hcj hzb
  · rintro (h | h) <;> omega

/-- General bracket linking: back-patch the popped `JMP_FWD` to the
index of the new `JMP_BCK` and append the `JMP_BCK` pointing back. -/
theorem Inv_link {P : List Op} {j0 : Nat} {stk2 : List Nat} {prev : Nat}
    (hI : Inv P (j0 :: stk2) prev) (off : Int) :
    Inv (backpatch P j0 P.length ++ [⟨.JMP_BCK, (j0 : Int), off⟩]) stk2 93 := by
  obtain ⟨A1, A2, B, C, _⟩ := hI
  obtain ⟨o0, ho0, hc0⟩ := A2 j0 (List.mem_cons_self _ _)
  have hj0lt : j0 < P.length := get?_lt ho0
  have hbp : backpatch P j0 P.length = P.set j0 { o0 with arg := (P.length : Int) } := by
    rw [backpatch, ho0]
  have hlenset : (P.set j0 { o0 with arg := (P.length : Int) }).length = P.length :=
    List.length_set ..
  have hget_ne : ∀ n, n ≠ j0 →
      (P.set j0 { o0 with arg := (P.length : Int) }).get? n = P.get? n := by
    intro n hn
    exact List.get?_set_ne _ _ (Ne.symm hn)
  have hget_j0 : (P.set j0 { o0 with arg := (P.length : Int) }).get? j0 =
      some { o0 with arg := (P.length : Int) } := get?_set_self hj0lt
  have hget_bck :
      (backpatch P j0 P.length ++ [(⟨.JMP_BCK, (j0 : Int), off⟩ : Op)]).get? P.length =
        some (⟨.JMP_BCK, (j0 : Int), off⟩ : Op) := by
    rw [hbp]
    have := List.get?_concat_length (P.set j0 { o0 with arg := (P.length : Int) })
      (⟨.JMP_BCK, (j0 : Int), off⟩ : Op)
    rw [hlenset] at this
    exact this
  have hget_j0' :
      (backpatch P j0 P.length ++ [(⟨.JMP_BCK, (j0 : Int), off⟩ : Op)]).get? j0 =
      some { o0 with arg := (P.length : Int) } := by
    rw [hbp, List.get?_append (by rw [hlenset]; exact hj0lt)]
    exact hget_j0
  have hpair : PairAt (backpatch P j0 P.length ++ [(⟨.JMP_BCK, (j0 : Int), off⟩ : Op)])
      j0 P.length :=
    ⟨hj0lt, ⟨{ o0 with arg := (P.length : Int) }, hget_j0', hc0, rfl⟩,
      ⟨⟨.JMP_BCK, (j0 : Int), off⟩, hget_bck, rfl, rfl⟩⟩
  have hj0nmem : j0 ∉ stk2 := by
    intro hm
    have := (List.pairwise_cons.mp A1).1 j0 hm
    omega
  refine ⟨(List.pairwise_cons.mp A1).2, ?_, ?_, ?_, ?_⟩
  · intro e he
    have hene : e ≠ j0 := by
      intro h
      subst h
      exact hj0nmem he
    have helt : e < P.length := by
      have := (List.pairwise_cons.mp A1).1 e he
      omega
    obtain ⟨o', ho', hc'⟩ := A2 e (List.mem_cons_of_mem _ he)
    refine ⟨o', ?_, hc'⟩
    rw [hbp, List.get?_append (by rw [hlenset]; exact helt), hget_ne e hene]
    exact ho'
  · intro i oi hoi hci
    have hilen := get?_lt hoi
    simp only [List.length_append, List.length_cons, List.length_nil, hbp, hlenset] at hilen
    by_cases hieq : i = P.length
    · subst hieq
      rw [hget_bck] at hoi
      cases hoi
      cases hci
    · by_cases hij0 : i = j0
      · subst hij0
        exact Or.inr ⟨P.length, hpair⟩
      · have hilt : i < P.length := by omega
        rw [hbp, List.get?_append (by rw [hlenset]; exact hilt), hget_ne i hij0] at hoi
        rcases B i oi hoi hci with hmem | ⟨j, hp⟩
        · rcases List.mem_cons.mp hmem with h | h
          · exact absurd h hij0
          · exact Or.inl h
        · right
          refine ⟨j, ?_⟩
          have hjne : j ≠ j0 := by
            intro h
            subst h
            obtain ⟨_, _, ⟨b2, hb2, hbc2, _⟩⟩ := hp
            rw [ho0] at hb2
            cases hb2
            rw [hc0] at hbc2
            cases hbc2
          rw [hbp]
          exact PairAt_set_append hp hij0 hjne
  · intro j bj hbj hcj
    have hjlen := get?_lt hbj
    simp only [List.length_append, List.length_cons, List.length_nil, hbp, hlenset] at hjlen
    by_cases hjeq : j = P.length
    · subst hjeq
      exact ⟨j0, hpair, hj0nmem⟩
    · by_cases hjj0 : j = j0
      · subst hjj0
        rw [hbp, List.get?_append (by rw [hlenset]; exact hj0lt), hget_j0] at hbj
        cases hbj
        rw [hc0] at hcj
        cases hcj
      · have hjlt : j < P.length := by omega
        rw [hbp, List.get?_append (by rw [hlenset]; exact hjlt), hget_ne j hjj0] at hbj
        obtain ⟨i, hp, hni⟩ := C j bj hbj hcj
        have hinj0 : i ≠ j0 := by
          intro h
          subst h
          exact hni (List.mem_cons_self _ _)
        refine ⟨i, ?_, ?_⟩
        · rw [hbp]
          exact PairAt_set_append hp hinj0 hjj0
        · intro hm
          exact hni (List.mem_cons_of_mem _ hm)
  · rintro (h | h) <;> omega

/-- The invariant is preserved along the whole parsing loop. -/
theorem parseLoop_inv : ∀ (fuel : Nat) (s : List Nat) (st : ParseSt),
    Inv st.program st.stack st.prevToken →
    ∀ st', parseLoop fuel s st = .ok st' → Inv st'.program st'.stack st'.prevToken := by
  intro fuel
  induction fuel with
  | zero =>
    intro s st hI st' h
    cases h
    exact hI
  | succ fuel ih =>
    intro s st hI st' h
    cases s with
    | nil => cases h; exact hI
    | cons ch s2 =>
      by_cases h0 : ch = 0
      · simp only [parseLoop, if_pos h0] at h
        cases h
        exact hI
      · by_cases hv : is_valid_token ch = false
        · simp only [parseLoop, if_neg h0, parseStep_invalid s2 st hv] at h
          exact ih s2 st hI st' h
        · have hv' : is_valid_token ch = true := by
            cases hx : is_valid_token ch
            · exact absurd hx hv
            · rfl
          rcases valid_token_cases hv' with h1 | h1 | h1 | h1 | h1 | h1 | h1 | h1 <;> subst h1
          · by_cases hp : st.prevToken = 43
            · simp only [parseLoop, if_neg h0, parseStep_plus_rep s2 st hp] at h
              exact ih s2 _ (Inv_bumpLast hI (Or.inl hp)) st' h
            · simp only [parseLoop, if_neg h0, parseStep_plus s2 st hp] at h
              exact ih s2 _
                (Inv_append hI ⟨.ADD, 1, st.offset⟩ 43 (by simp) (by simp)
                  (fun _ => Or.inl rfl)) st' h
          · by_cases hp : st.prevToken = 45
            · simp only [parseLoop, if_neg h0, parseStep_minus_rep s2 st hp] at h
              exact ih s2 _ (Inv_bumpLast hI (Or.inr hp)) st' h
            · simp only [parseLoop, if_neg h0, parseStep_minus s2 st hp] at h
              exact ih s2 _
                (Inv_append hI ⟨.MINUS, 1, st.offset⟩ 45 (by simp) (by simp)
                  (fun _ => Or.inr rfl)) st' h
          · simp only [parseLoop, if_neg h0, parseStep_gt s2 st] at h
            exact ih s2 { st with prevToken := 62, offset := st.offset + 1 }
              (Inv_prev hI 62 (by omega) (by omega)) st' h
          · simp only [parseLoop, if_neg h0, parseStep_lt s2 st] at h
            exact ih s2 { st with prevToken := 60, offset := st.offset - 1 }
              (Inv_prev hI 60 (by omega) (by omega)) st' h
          · simp only [parseLoop, if_neg h0, parseStep_dot s2 st] at h
            exact ih s2 _
              (Inv_append hI ⟨.PUT, 0, st.offset⟩ 46 (by simp) (by simp)
                (by rintro (h2 | h2) <;> omega)) st' h
          · simp only [parseLoop, if_neg h0, parseStep_comma s2 st] at h
            exact ih s2 _
              (Inv_append hI ⟨.READ, 0, st.offset⟩ 44 (by simp) (by simp)
                (by rintro (h2 | h2) <;> omega)) st' h
          · cases hz : zwin s2 with
            | some u =>
              simp only [parseLoop, if_neg h0, parseStep_lbrack_zero st hz] at h
              exact ih u _
                (Inv_append hI ⟨.ZERO, 0, st.offset⟩ 91 (by simp) (by simp)
                  (by rintro (h2 | h2) <;> omega)) st' h
            | none =>
              by_cases hd : st.stack.length = 256
              · simp only [parseLoop, if_neg h0, parseStep_lbrack_deep st hz hd] at h
                cases h
              · simp only [parseLoop, if_neg h0, parseStep_lbrack st hz hd] at h
                exact ih s2 _ (Inv_push hI st.offset) st' h
          · cases hs : st.stack with
            | nil =>
              simp only [parseLoop, if_neg h0, parseStep_rbrack_none s2 st hs] at h
              cases h
            | cons jmp_pos stack2 =>
              rw [hs] at hI
              cases hl : st.program.getLast? with
              | none =>
                exfalso
                obtain ⟨_, A2, _, _, _⟩ := hI
                obtain ⟨o0, ho0, _⟩ := A2 jmp_pos (List.mem_cons_self _ _)
                rw [getLast?_none hl] at ho0
                cases ho0
              | some p =>
                by_cases hf : p.code = .JMP_FWD
                · simp only [parseLoop, if_neg h0, parseStep_rbrack_seek s2 st hs hl hf] at h
                  have hPd := eq_dropLast_concat hl
                  rw [hPd] at hI
                  exact ih s2 _
                    (Inv_seek hI hf ⟨.ZEROSEEK, st.offset, p.offset⟩ (by simp) (by simp))
                    st' h
                · simp only [parseLoop, if_neg h0, parseStep_rbrack_link s2 st hs hl hf] at h
                  exact ih s2 _ (Inv_link hI st.offset) st' h

/-! Lemmas for the comment-insensitivity claim: relating a parse of the
raw input to a parse of its significant subsequence. -/

theorem valid_ne_zero {c : Nat} (h : is_valid_token c = true) : c ≠ 0 := by
  rcases valid_token_cases h with h1 | h1 | h1 | h1 | h1 | h1 | h1 | h1 <;> omega

theorem noZero_cons {c : Nat} {r : List Nat} (h : noZero (c :: r) = true) :
    c ≠ 0 ∧ noZero r = true := by
  simp only [noZero, List.all_cons, Bool.and_eq_true, bne_iff_ne] at h
  exact ⟨h.1, by simp [noZero, h.2]⟩

theorem noZero_suffix {a b : List Nat} (h : noZero (a ++ b) = true) : noZero b = true := by
  simp only [noZero, List.all_append, Bool.and_eq_true] at h
  exact h.2

theorem stableZW_cons {c : Nat} {r : List Nat} (h : stableZW (c :: r) = true) :
    (c = 91 → zwAgree r = true) ∧ stableZW r = true := by
  simp only [stableZW, Bool.and_eq_true] at h
  refine ⟨?_, h.2⟩
  intro hc
  have := h.1
  rw [if_pos hc] at this
  exact this

theorem stableZW_suffix : ∀ {a b : List Nat}, stableZW (a ++ b) = true → stableZW b = true := by
  intro a
  induction a with
  | nil => intro b h; exact h
  | cons c r ih =>
    intro b h
    exact ih (stableZW_cons h).2

theorem zwAgree_spec {rest : List Nat} (h : zwAgree rest = true)
    (hf : firstTok rest = some 45) : rest.head? = some 45 := by
  unfold zwAgree at h
  rw [hf] at h
  simp at h
  exact h

theorem filter_firstTok : ∀ (x : List Nat),
    (x.filter is_valid_token).head? = firstTok x := by
  intro x
  induction x with
  | nil => rfl
  | cons c cs ih =>
    by_cases hv : is_valid_token c
    · simp [List.filter_cons, hv, firstTok]
    · simp only [List.filter_cons, Bool.not_eq_true] at *
      rw [hv]
      simp only [Bool.false_eq_true, if_false, firstTok]
      rw [ih]
      rw [if_neg (by simp [hv])]

theorem filter_of_peek_some : ∀ {x t : _} {u : List Nat}, peek x = some (t :: u) →
    x.filter is_valid_token = t :: u.filter is_valid_token := by
  intro x
  induction x with
  | nil => intro t u h; simp [peek] at h
  | cons c cs ih =>
    intro t u h
    simp only [peek] at h
    split at h
    · simp at h
    · split at h
      · cases h
        simp only [List.filter_cons]
        rw [if_pos (by assumption)]
      · have hv : is_valid_token c = false := by
          cases hx : is_valid_token c
          · rfl
          · exact absurd hx (by assumption)
        simp only [List.filter_cons]
        rw [hv]
        simp only [Bool.false_eq_true, if_false]
        exact ih h

theorem filter_of_peek_none : ∀ {x : List Nat}, peek x = none → noZero x = true →
    x.filter is_valid_token = [] := by
  intro x
  induction x with
  | nil => intro _ _; rfl
  | cons c cs ih =>
    intro h h0
    obtain ⟨hc0, hcs0⟩ := noZero_cons h0
    simp only [peek] at h
    rw [if_neg hc0] at h
    split at h
    · simp at h
    · have hv : is_valid_token c = false := by
        cases hx : is_valid_token c
        · rfl
        · exact absurd hx (by assumption)
      simp only [List.filter_cons]
      rw [hv]
      simp only [Bool.false_eq_true, if_false]
      exact ih h hcs0

theorem peek_suffix : ∀ {x l : List Nat}, peek x = some l → ∃ pre, x = pre ++ l := by
  intro x
  induction x with
  | nil => intro l h; simp [peek] at h
  | cons c cs ih =>
    intro l h
    simp only [peek] at h
    split at h
    · simp at h
    · split at h
      · cases h
        exact ⟨[], rfl⟩
      · obtain ⟨pre, hpre⟩ := ih h
        exact ⟨c :: pre, by rw [List.cons_append, ← hpre]⟩

theorem zwin_suffix {rest u : List Nat} (h : zwin rest = some u) :
    ∃ pre, rest = pre ++ u := by
  cases rest with
  | nil => simp [zwin] at h
  | cons b r2 =>
    by_cases hb : b = 45
    · cases hpk : peek r2 with
      | none => simp [zwin, hb, hpk] at h
      | some l =>
        cases l with
        | nil => simp [zwin, hb, hpk] at h
        | cons t u2 =>
          by_cases ht : t = 93
          · simp [zwin, hb, hpk, ht] at h
            subst h
            obtain ⟨pre, hpre⟩ := peek_suffix hpk
            exact ⟨b :: pre ++ [t], by rw [hpre]; simp⟩
          · simp [zwin, hb, hpk, ht] at h
    · simp [zwin, hb] at h

/-- Under `noZero` and `zwAgree`, the clear-cell lookahead decides the
same way on the raw input and on its significant subsequence. -/
theorem zwin_filter {rest : List Nat} (h0 : noZero rest = true) (hza : zwAgree rest = true) :
    (zwin rest = none → zwin (rest.filter is_valid_token) = none) ∧
    (∀ u, zwin rest = some u →
        zwin (rest.filter is_valid_token) = some (u.filter is_valid_token)) := by
  cases rest with
  | nil => exact ⟨fun _ => rfl, fun u h => by simp [zwin] at h⟩
  | cons b r2 =>
    obtain ⟨hb0, hr20⟩ := noZero_cons h0
    by_cases hb : b = 45
    · subst hb
      have hfil : (45 :: r2).filter is_valid_token = 45 :: r2.filter is_valid_token := by
        simp [List.filter_cons, is_valid_token]
      cases hpk : peek r2 with
      | none =>
        have hf2 : r2.filter is_valid_token = [] := filter_of_peek_none hpk hr20
        refine ⟨fun _ => ?_, fun u h => ?_⟩
        · rw [hfil, hf2]
          rfl
        · simp [zwin, hpk] at h
      | some l =>
        cases l with
        | nil =>
          refine ⟨fun _ => ?_, fun u h => ?_⟩
          · exact absurd hpk (by intro h2; obtain ⟨t, u2, ht, _⟩ := peek_shape h2; cases ht)
          · simp [zwin, hpk] at h
        | cons t u2 =>
          have hf2 : r2.filter is_valid_token = t :: u2.filter is_valid_token :=
            filter_of_peek_some hpk
          obtain ⟨t', u', he, hvt⟩ := peek_shape hpk
          have hteq : t' = t ∧ u' = u2 := by
            cases he
            exact ⟨rfl, rfl⟩
          rw [hteq.1] at hvt
          have hpkf : peek (r2.filter is_valid_token) =
              some (t :: u2.filter is_valid_token) := by
            rw [hf2]
            simp only [peek]
            rw [if_neg (valid_ne_zero hvt), if_pos hvt]
          by_cases ht : t = 93
          · refine ⟨fun h => ?_, fun u h => ?_⟩
            · simp [zwin, hpk, ht] at h
            · simp only [zwin, hpk, ht, if_pos, if_true, Option.some.injEq] at h
              subst h
              rw [hfil]
              simp only [zwin, hpkf]
              simp [ht]
          · refine ⟨fun _ => ?_, fun u h => ?_⟩
            · rw [hfil]
              simp only [zwin, hpkf]
              simp [ht]
            · simp [zwin, hpk, ht] at h
    · refine ⟨fun _ => ?_, fun u h => ?_⟩
      · by_cases hv : is_valid_token b
        · have hfil : (b :: r2).filter is_valid_token = b :: r2.filter is_valid_token := by
            simp [List.filter_cons, hv]
          rw [hfil]
          simp [zwin, hb]
        · have hfil : (b :: r2).filter is_valid_token = r2.filter is_valid_token := by
            simp only [List.filter_cons, Bool.not_eq_true] at *
            rw [hv]
            simp
          rw [hfil]
          have hft : firstTok (b :: r2) = firstTok r2 := by
            simp only [firstTok]
            rw [if_neg (by simp [hv] : ¬ is_valid_token b = true)]
          have hne45 : firstTok r2 ≠ some 45 := by
            intro hf
            have := zwAgree_spec hza (by rw [hft]; exact hf)
            simp only [List.head?] at this
            cases this
            exact hv (by simp [is_valid_token])
          cases hfr : r2.filter is_valid_token with
          | nil => rfl
          | cons c rest' =>
            have : (r2.filter is_valid_token).head? = some c := by rw [hfr]; rfl
            rw [filter_firstTok] at this
            have hc45 : c ≠ 45 := by
              intro h2
              subst h2
              exact hne45 this
            simp [zwin, hc45]
      · simp [zwin, hb] at h

/-- Under `noZero` and `stableZW`, parsing the raw input and parsing
its significant subsequence produce identical results. -/
theorem parseLoop_filter : ∀ (n : Nat) (s : List Nat) (st : ParseSt), s.length ≤ n →
    noZero s = true → stableZW s = true →
    parseLoop (s.length + 1) s st =
      parseLoop ((s.filter is_valid_token).length + 1) (s.filter is_valid_token) st := by
  intro n
  induction n with
  | zero =>
    intro s st hn _ _
    have hs : s = [] := List.length_eq_zero.mp (Nat.le_zero.mp hn)
    subst hs
    rfl
  | succ n ih =>
    intro s st hn h0 hz
    cases s with
    | nil => rfl
    | cons ch s2 =>
      obtain ⟨hch0, hs20⟩ := noZero_cons h0
      obtain ⟨hzw, hzs2⟩ := stableZW_cons hz
      have hn2 : s2.length ≤ n := by simpa using hn
      by_cases hv : is_valid_token ch = false
      · have hfil : (ch :: s2).filter is_valid_token = s2.filter is_valid_token := by
          simp only [List.filter_cons]
          rw [hv]
          simp
        have e1 : parseLoop ((ch :: s2).length + 1) (ch :: s2) st =
            parseLoop (s2.length + 1) s2 st := by
          simp only [parseLoop, if_neg hch0, parseStep_invalid s2 st hv, List.length_cons]
        rw [e1, hfil]
        exact ih s2 st hn2 hs20 hzs2
      · have hv' : is_valid_token ch = true := by
          cases hx : is_valid_token ch
          · exact absurd hx hv
          · rfl
        have hfil : (ch :: s2).filter is_valid_token = ch :: s2.filter is_valid_token := by
          simp [List.filter_cons, hv']
        have hflen : (s2.filter is_valid_token).length ≤ s2.length :=
          List.length_filter_le _ _
        -- both sides step with the same parseStep outcome on the same state;
        -- finish all cases with continuation s2 / filter s2
        have main : ∀ (st' : ParseSt),
            parseStep ch s2 st = .ok (st', s2) →
            parseStep ch (s2.filter is_valid_token) st =
              .ok (st', s2.filter is_valid_token) →
            parseLoop ((ch :: s2).length + 1) (ch :: s2) st =
              parseLoop (((ch :: s2).filter is_valid_token).length + 1)
                ((ch :: s2).filter is_valid_token) st := by
          intro st' hstep hstepf
          have e1 : parseLoop ((ch :: s2).length + 1) (ch :: s2) st =
              parseLoop (s2.length + 1) s2 st' := by
            simp only [parseLoop, if_neg hch0, hstep, List.length_cons]
          have e2 : parseLoop (((ch :: s2).filter is_valid_token).length + 1)
              ((ch :: s2).filter is_valid_token) st =
              parseLoop ((s2.filter is_valid_token).length + 1)
                (s2.filter is_valid_token) st' := by
            rw [hfil]
            simp only [parseLoop, if_neg hch0, hstepf, List.length_cons]
          rw [e1, e2]
          exact ih s2 st' hn2 hs20 hzs2
        rcases valid_token_cases hv' with h1 | h1 | h1 | h1 | h1 | h1 | h1 | h1 <;> subst h1
        · by_cases hp : st.prevToken = 43
          · exact main _ (parseStep_plus_rep s2 st hp)
              (parseStep_plus_rep (s2.filter is_valid_token) st hp)
          · exact main _ (parseStep_plus s2 st hp)
              (parseStep_plus (s2.filter is_valid_token) st hp)
        · by_cases hp : st.prevToken = 45
          · exact main _ (parseStep_minus_rep s2 st hp)
              (parseStep_minus_rep (s2.filter is_valid_token) st hp)
          · exact main _ (parseStep_minus s2 st hp)
              (parseStep_minus (s2.filter is_valid_token) st hp)
        · exact main _ (parseStep_gt s2 st) (parseStep_gt (s2.filter is_valid_token) st)
        · exact main _ (parseStep_lt s2 st) (parseStep_lt (s2.filter is_valid_token) st)
        · exact main _ (parseStep_dot s2 st) (parseStep_dot (s2.filter is_valid_token) st)
        · exact main _ (parseStep_comma s2 st)
            (parseStep_comma (s2.filter is_valid_token) st)
        · have hza : zwAgree s2 = true := hzw rfl
          cases hzn : zwin s2 with
          | some u =>
            have hznf := (zwin_filter hs20 hza).2 u hzn
            obtain ⟨pre, hpre⟩ := zwin_suffix hzn
            have hu0 : noZero u = true := noZero_suffix (hpre ▸ hs20)
            have huz : stableZW u = true := stableZW_suffix (hpre ▸ hzs2)
            have hulen : u.length ≤ s2.length := zwin_length _ _ hzn
            have huflen : (u.filter is_valid_token).length ≤ (s2.filter is_valid_token).length := by
              rw [hpre, List.filter_append]
              simp only [List.length_append]
              omega
            have e1 : parseLoop ((91 :: s2).length + 1) (91 :: s2) st =
                parseLoop (u.length + 1) u
                  { st with program := st.program ++ [⟨.ZERO, 0, st.offset⟩],
                            prevToken := 91, offset := 0 } := by
              simp only [parseLoop, if_neg hch0, parseStep_lbrack_zero st hzn,
                List.length_cons]
              exact parseLoop_fuel _ _ _ _ (by omega) (by omega)
            have e2 : parseLoop (((91 :: s2).filter is_valid_token).length + 1)
                ((91 :: s2).filter is_valid_token) st =
                parseLoop ((u.filter is_valid_token).length + 1) (u.filter is_valid_token)
                  { st with program := st.program ++ [⟨.ZERO, 0, st.offset⟩],
                            prevToken := 91, offset := 0 } := by
              rw [hfil]
              simp only [parseLoop, if_neg hch0, parseStep_lbrack_zero st hznf,
                List.length_cons]
              exact parseLoop_fuel _ _ _ _ (by omega) (by omega)
            rw [e1, e2]
            exact ih u _ (by omega) hu0 huz
          | none =>
            have hznf := (zwin_filter hs20 hza).1 hzn
            by_cases hd : st.stack.length = 256
            · have e1 : parseLoop ((91 :: s2).length + 1) (91 :: s2) st =
                  .error .nestingTooDeep := by
                simp [parseLoop, if_neg hch0, parseStep_lbrack_deep st hzn hd]
              have e2 : parseLoop (((91 :: s2).filter is_valid_token).length + 1)
                  ((91 :: s2).filter is_valid_token) st = .error .nestingTooDeep := by
                rw [hfil]
                simp [parseLoop, if_neg hch0, parseStep_lbrack_deep st hznf hd]
              rw [e1, e2]
            · exact main _ (parseStep_lbrack st hzn hd) (parseStep_lbrack st hznf hd)
        · cases hs : st.stack with
          | nil =>
            have e1 : parseLoop ((93 :: s2).length + 1) (93 :: s2) st =
                .error .missingOpen := by
              simp [parseLoop, if_neg hch0, parseStep_rbrack_none s2 st hs]
            have e2 : parseLoop (((93 :: s2).filter is_valid_token).length + 1)
                ((93 :: s2).filter is_valid_token) st = .error .missingOpen := by
              rw [hfil]
              simp [parseLoop, if_neg hch0,
                parseStep_rbrack_none (s2.filter is_valid_token) st hs]
            rw [e1, e2]
          | cons jmp_pos stack2 =>
            cases hl : st.program.getLast? with
            | none =>
              exact main _ (parseStep_rbrack_empty s2 st hs hl)
                (parseStep_rbrack_empty (s2.filter is_valid_token) st hs hl)
            | some p =>
              by_cases hf : p.code = .JMP_FWD
              · exact main _ (parseStep_rbrack_seek s2 st hs hl hf)
                  (parseStep_rbrack_seek (s2.filter is_valid_token) st hs hl hf)
              · exact main _ (parseStep_rbrack_link s2 st hs hl hf)
                  (parseStep_rbrack_link (s2.filter is_valid_token) st hs hl hf)

/-- A successfully parsed IR (with its `END` terminator) satisfies the
pairing invariant with an empty stack. -/
theorem parse_inv {s : List Nat} {ir : List Op} (h : parse s = .ok ir) : Inv ir [] 0 := by
  have hInit : Inv ([] : List Op) [] 0 := by
    refine ⟨List.Pairwise.nil, ?_, ?_, ?_, ?_⟩
    · intro e he
      cases he
    · intro i o ho
      rw [List.get?_eq_none.mpr (by simp)] at ho
      cases ho
    · intro j b hb
      rw [List.get?_eq_none.mpr (by simp)] at hb
      cases hb
    · rintro (h2 | h2) <;> omega
  revert h
  unfold parse
  cases hpl : parseLoop (s.length + 1) s ⟨[], 0, 0, []⟩ with
  | error e =>
    intro h
    cases h
  | ok st' =>
    intro h
    have hI := parseLoop_inv (s.length + 1) s ⟨[], 0, 0, []⟩ hInit st' hpl
    by_cases he : st'.stack.isEmpty
    · simp only [he, if_pos, if_true] at h
      cases h
      have hse : st'.stack = [] := by
        cases hx : st'.stack
        · rfl
        · rw [hx] at he
          cases he
      rw [hse] at hI
      exact Inv_append hI ⟨.END, 0, 0⟩ 0 (by simp) (by simp) (by rintro (h2 | h2) <;> omega)
    · simp only [he] at h
      cases h

end BF

/-- C7.  Characterization of parse success and of the nesting-too-deep
failure, with `wfScan` (bracket matching) and `deep257` (a 257th
simultaneously open, non-collapsed bracket is encountered) the
spec-level scanners over the significant stream that mirror the
parser's traversal: parsing succeeds for every well-formed input whose
nesting depth never exceeds 256, and fails with the nesting error
exactly when a 257th simultaneously open bracket is encountered (the
`PUSH_STACK` capacity check at `STACK_SIZE = 256`). -/
theorem claim_C7 (s : List Nat) :
    (BF.wfScan (s.length + 1) s 0 = true ∧ BF.deep257 (s.length + 1) s 0 = false →
        ∃ ir, BF.parse s = .ok ir) ∧
    (BF.parse s = .error .nestingTooDeep ↔ BF.deep257 (s.length + 1) s 0 = true) := by
  constructor
  · rintro ⟨hw, hd⟩
    obtain ⟨st', ha, hb⟩ := BF.wf_ok (s.length + 1) s ⟨[], 0, 0, []⟩ hw hd
    refine ⟨st'.program ++ [⟨.END, 0, 0⟩], ?_⟩
    simp [BF.parse, ha, hb]
  · have L := BF.nest_iff (s.length + 1) s ⟨[], 0, 0, []⟩
    cases hpl : BF.parseLoop (s.length + 1) s ⟨[], 0, 0, []⟩ with
    | error e =>
      rw [hpl] at L
      constructor
      · intro h
        apply L.mp
        simp only [BF.parse, hpl] at h
        cases h
        exact hpl ▸ rfl
      · intro h
        have := L.mpr (by simpa using h)
        cases this
        simp [BF.parse, hpl]
    | ok st =>
      rw [hpl] at L
      constructor
      · intro h
        simp only [BF.parse, hpl] at h
        by_cases he : st.stack.isEmpty
        · simp [he] at h
        · simp [he] at h
      · intro h
        exact absurd (L.mpr (by simpa using h)) (by simp)

/-- Witness for C7 at the spec's boundary: 256 nested brackets parse
successfully; 257 nested brackets fail with the nesting error. -/
theorem claim_C7_witness :
    (∃ ir, BF.parse nest256 = .ok ir) ∧ BF.parse nest257 = .error .nestingTooDeep :=
  ⟨(claim_C7 nest256).1 ⟨by decide, by decide⟩, (claim_C7 nest257).2.mpr (by decide)⟩

/-- C9.  A trailing run of `>`/`<` (and comments) not followed by any
emitting token is discarded: appending such a block to any input leaves
`parse`'s result unchanged; in particular `>>>+<<<` parses to exactly
`[ADD(1, 3), END]`, whose `print_ast` dump is the two lines
`ADD(1, 3)` and `END`. -/
theorem claim_C9 :
    (∀ (s m : List Nat), (∀ c ∈ m, BF.is_valid_token c = true → c = 62 ∨ c = 60) →
        BF.parse (s ++ m) = BF.parse s) ∧
    BF.parse c9src = .ok [⟨.ADD, 1, 3⟩, ⟨.END, 0, 0⟩] ∧
    BF.print_ast [⟨.ADD, 1, 3⟩, ⟨.END, 0, 0⟩] = ["ADD(1, 3)", "END"] := by
  refine ⟨?_, rfl, rfl⟩
  intro s m hm
  have H := BF.parseLoop_append_moves m hm s.length s ⟨[], 0, 0, []⟩ (le_refl _)
  cases hplm : BF.parseLoop ((s ++ m).length + 1) (s ++ m) ⟨[], 0, 0, []⟩ with
  | error e =>
    have h2 := (H.1 e).mp hplm
    unfold BF.parse
    rw [hplm, h2]
  | ok st1 =>
    obtain ⟨st2, h2, hprog, hstk⟩ := H.2 st1 hplm
    unfold BF.parse
    rw [hplm, h2]
    simp [hprog, hstk]

/-- Witness for C9's universal part: appending `<<` to `+` leaves the
parse unchanged. -/
theorem claim_C9_witness : BF.parse ([43] ++ [60, 60]) = BF.parse [43] :=
  claim_C9.1 [43] [60, 60] (by decide)

/-- C2.  Bracket linking in every successfully parsed IR.  The stored
`arg` of a jump is the index the interpreter assigns to `p`, after
which the `for` loop increments, so the jump's target — the index at
which execution resumes — is `t = arg + 1`.  For every `JMP_FWD` at
index `i` with target `t`, the instruction at index `t − 1` is a
`JMP_BCK` whose target is `i + 1` (i.e. the forward target is one past
the `JMP_BCK`, which was back-patched at the closing bracket, and the
`JMP_BCK` targets one past the popped opening index), and conversely
for every `JMP_BCK`. -/
theorem claim_C2 (s : List Nat) (ir : List BF.Op) (h : BF.parse s = .ok ir) :
    (∀ i o, ir.get? i = some o → o.code = .JMP_FWD →
        ∃ t : Nat, o.arg + 1 = (t : Int) ∧ 1 ≤ t ∧
          ∃ b, ir.get? (t - 1) = some b ∧ b.code = .JMP_BCK ∧ b.arg + 1 = (i : Int) + 1) ∧
    (∀ j b, ir.get? j = some b → b.code = .JMP_BCK →
        ∃ t : Nat, b.arg + 1 = (t : Int) ∧ 1 ≤ t ∧
          ∃ o, ir.get? (t - 1) = some o ∧ o.code = .JMP_FWD ∧ o.arg + 1 = (j : Int) + 1) := by
  obtain ⟨-, -, B, C, -⟩ := BF.parse_inv h
  constructor
  · intro i o hio hic
    rcases B i o hio hic with hmem | ⟨j, hij, ⟨o2, ho2, _, hoa⟩, ⟨b, hbj, hbc, hba⟩⟩
    · cases hmem
    · rw [hio] at ho2
      cases ho2
      refine ⟨j + 1, ?_, by omega, b, ?_, hbc, ?_⟩
      · rw [hoa]
        push_cast
        ring
      · simpa using hbj
      · rw [hba]
  · intro j b hbj hcj
    obtain ⟨i, ⟨hij, ⟨o, hoi, hoc, hoa⟩, ⟨b2, hb2, _, hba⟩⟩, -⟩ := C j b hbj hcj
    rw [hbj] at hb2
    cases hb2
    refine ⟨i + 1, ?_, by omega, o, ?_, hoc, ?_⟩
    · rw [hba]
      push_cast
      ring
    · simpa using hoi
    · rw [hoa]

/-- Witness for C2 at the concrete program `[+]`, whose IR is
`[JMP_FWD(2, 0), ADD(1, 0), JMP_BCK(0, 0), END]`. -/
theorem claim_C2_witness :
    (∀ i o, [(⟨.JMP_FWD, 2, 0⟩ : BF.Op), ⟨.ADD, 1, 0⟩, ⟨.JMP_BCK, 0, 0⟩,
        ⟨.END, 0, 0⟩].get? i = some o → o.code = .JMP_FWD →
        ∃ t : Nat, o.arg + 1 = (t : Int) ∧ 1 ≤ t ∧
          ∃ b, [(⟨.JMP_FWD, 2, 0⟩ : BF.Op), ⟨.ADD, 1, 0⟩, ⟨.JMP_BCK, 0, 0⟩,
            ⟨.END, 0, 0⟩].get? (t - 1) = some b ∧ b.code = .JMP_BCK ∧
            b.arg + 1 = (i : Int) + 1) ∧
    (∀ j b, [(⟨.JMP_FWD, 2, 0⟩ : BF.Op), ⟨.ADD, 1, 0⟩, ⟨.JMP_BCK, 0, 0⟩,
        ⟨.END, 0, 0⟩].get? j = some b → b.code = .JMP_BCK →
        ∃ t : Nat, b.arg + 1 = (t : Int) ∧ 1 ≤ t ∧
          ∃ o, [(⟨.JMP_FWD, 2, 0⟩ : BF.Op), ⟨.ADD, 1, 0⟩, ⟨.JMP_BCK, 0, 0⟩,
            ⟨.END, 0, 0⟩].get? (t - 1) = some o ∧ o.code = .JMP_FWD ∧
            o.arg + 1 = (j : Int) + 1) :=
  claim_C2 [91, 43, 93]
    [⟨.JMP_FWD, 2, 0⟩, ⟨.ADD, 1, 0⟩, ⟨.JMP_BCK, 0, 0⟩, ⟨.END, 0, 0⟩] rfl

/-- C1.  The claim fails on the code: on the well-formed, trap-free
program `+` · `>`×256 · `.` with empty stdin, the bytecode interpreter
prints the byte 0x00 (the cell at index 256 of the zeroed tape), while
the JIT prints 0x01: `compile_bf` fuses the 256 `>` into the single
constant `OP_ARG(255) = (1 + 255) mod 256 = 0` of type `jit_type_ubyte`,
so the compiled pointer move is `tape += 0` and the `.` prints the
incremented cell 0.  The conjuncts below evaluate both sides: the parse,
the strict-mode run (terminating normally — no trap), the interpreter
output `[0]`, the compiled code with its truncated `movePtrAdd 0`, the
JIT output `[1]`, and their disagreement. -/
theorem claim_C1 :
    BF.parse c1src = .ok [⟨.ADD, 1, 0⟩, ⟨.PUT, 0, 256⟩, ⟨.END, 0, 0⟩] ∧
    BF.strictRunOut c1src [] 20 = some (.ok [0]) ∧
    BF.runOut c1src [] 20 = some [0] ∧
    Jit.compile_bf c1src = .ok [.addCell 1, .movePtrAdd 0, .put, .ret] ∧
    Jit.jitRunOut c1src [] 20 = some [1] ∧
    BF.runOut c1src [] 20 ≠ Jit.jitRunOut c1src [] 20 :=
  ⟨rfl, rfl, rfl, rfl, rfl, by decide⟩

/-- C3.  The claim's expected stdout is wrong: interpreting
`+++>+++>+++<<[>]+.` on empty stdin writes the single byte 0x01, not
0x04 — the scan stops on the first zero cell (offset +3), which the
`+` increments from 0 to 1 before `.` prints it. -/
theorem claim_C3_cex :
    BF.runOut c3src [] 100 = some [1] ∧ BF.runOut c3src [] 100 ≠ some [4] :=
  ⟨rfl, by decide⟩

/-- C3 (amended).  Interpreting `+++>+++>+++<<[>]+.` with empty stdin
writes exactly one byte, 0x01, to stdout. -/
theorem claim_C3_amended : BF.runOut c3src [] 100 = some [1] := rfl

/-- C4.  The claim fails on the code: in `[x-]` the significant stream
contains the window `[`,`-`,`]`, with the comment byte `x` between `[`
and `-`; the parser does not recognize it (the C condition is
`*s == '-'` on the raw next byte) and instead emits a general loop
`JMP_FWD, MINUS, JMP_BCK` with no `ZERO`. -/
theorem claim_C4_cex :
    c45src.filter BF.is_valid_token = [91, 45, 93] ∧
    BF.parse c45src =
      .ok [⟨.JMP_FWD, 2, 0⟩, ⟨.MINUS, 1, 0⟩, ⟨.JMP_BCK, 0, 0⟩, ⟨.END, 0, 0⟩] ∧
    ∀ o ∈ [(⟨.JMP_FWD, 2, 0⟩ : BF.Op), ⟨.MINUS, 1, 0⟩, ⟨.JMP_BCK, 0, 0⟩, ⟨.END, 0, 0⟩],
      o.code ≠ .ZERO :=
  ⟨rfl, rfl, by decide⟩

/-- C4 (amended).  The clear-cell window is recognized exactly when the
`-` immediately follows the `[` in the raw byte stream (comment bytes
are skipped only between the `-` and the `]`, by `peek`): whenever the
input continues `[`, `-`, then comments, then `]` (with remainder `u`),
the parser emits a single `ZERO` carrying the pending offset, pushes
nothing on the bracket stack, emits no jump, and resumes past the `]`;
in particular `[-]` parses to exactly `[ZERO(0, 0), END]`. -/
theorem claim_C4_amended :
    (∀ (fuel : Nat) (s3 u : List Nat) (st : BF.ParseSt), BF.peek s3 = some (93 :: u) →
        BF.parseLoop (fuel + 1) (91 :: 45 :: s3) st =
          BF.parseLoop fuel u
            { st with program := st.program ++ [⟨.ZERO, 0, st.offset⟩],
                      prevToken := 91, offset := 0 }) ∧
    BF.parse [91, 45, 93] = .ok [⟨.ZERO, 0, 0⟩, ⟨.END, 0, 0⟩] := by
  constructor
  · intro fuel s3 u st h
    simp [BF.parseLoop, BF.parseStep, BF.zwin, h, BF.is_valid_token, BF.is_repeatable_token]
  · rfl

/-- Witness for C4 (amended) at the concrete input `[-]`. -/
theorem claim_C4_witness :
    BF.parseLoop 2 [91, 45, 93] ⟨[], 0, 0, []⟩ =
      BF.parseLoop 1 []
        { (⟨[], 0, 0, []⟩ : BF.ParseSt) with
            program := ([] : List BF.Op) ++ [⟨.ZERO, 0, (0 : Int)⟩],
            prevToken := 91, offset := 0 } :=
  claim_C4_amended.1 1 [93] [] ⟨[], 0, 0, []⟩ rfl

/-- C5.  The claim fails on the code: the parsed IR is not a function of
the significant subsequence alone.  For `[x-]` the significant
subsequence is `[-]`, but `parse` yields a general loop for the former
and a single `ZERO` for the latter (the clear-cell lookahead reads the
raw byte after `[`). -/
theorem claim_C5_cex :
    c45src.filter BF.is_valid_token = [91, 45, 93] ∧
    BF.parse c45src ≠ BF.parse (c45src.filter BF.is_valid_token) :=
  ⟨rfl, by decide⟩

/-- C5 (amended).  The parsed IR depends only on the significant
subsequence, provided (a) the byte stream contains no NUL byte (a NUL
terminates C parsing, unreading everything after it), and (b) no `[` is
separated by comment bytes from a following significant `-` (the
clear-cell lookahead reads the raw byte after `[`): under `noZero` and
`stableZW`, `parse s = parse (filter s)`. -/
theorem claim_C5_amended (s : List Nat) (h0 : BF.noZero s = true)
    (hz : BF.stableZW s = true) :
    BF.parse s = BF.parse (s.filter BF.is_valid_token) := by
  unfold BF.parse
  rw [BF.parseLoop_filter s.length s ⟨[], 0, 0, []⟩ (le_refl _) h0 hz]

/-- Witness for C5 (amended) at the commented input `a+b[-]c`. -/
theorem claim_C5_witness :
    BF.parse [97, 43, 98, 91, 45, 93, 99] =
      BF.parse ([97, 43, 98, 91, 45, 93, 99].filter BF.is_valid_token) :=
  claim_C5_amended [97, 43, 98, 91, 45, 93, 99] (by decide) (by decide)

/-- C6.  The claim is right and the code is wrong (the spec itself
flags the check as off-by-one, §9): `OVERFLOW_CHECK` traps when
`tape[i] >= INT8_MAX - x`, so `ADD(127)` on a zero cell traps although
0 + 127 = 127 = `INT8_MAX` does not cross the upper 8-bit boundary.
`parse` of 127 `+` yields the single `ADD(127, 0)`; under strict checks
it traps with the overflow error, while the crossing condition of the
claim does not hold (`signed 0 + 127 ≤ 127`), and the non-strict build
runs it to completion. -/
theorem claim_C6 :
    BF.parse c6src = .ok [⟨.ADD, 127, 0⟩, ⟨.END, 0, 0⟩] ∧
    BF.signed 0 + 127 ≤ 127 ∧
    BF.strictRunOut c6src [] 10 = some (.error .overflow) ∧
    BF.runOut c6src [] 10 = some [] :=
  ⟨rfl, by decide, rfl, rfl⟩

/-- C8.  When a `READ` executes with stdin at end-of-file, `getchar()`
returns −1 and the `int8_t` store leaves the cell at 0xFF = 255 in the
unsigned view; execution continues with the following instruction
(program counter `pc + 1`), the input still empty. -/
theorem claim_C8 (prog : List BF.Op) (pc : Nat) (p : BF.Op) (st : BF.RunSt) (fuel : Nat)
    (hp : prog.get? pc = some p) (hc : p.code = .READ) (hin : st.inp = []) :
    BF.execOps prog (fuel + 1) pc st =
      BF.execOps prog fuel (pc + 1)
        { st with i := st.i + p.offset, tape := upd st.tape (st.i + p.offset) 255 } := by
  obtain ⟨c, a, o⟩ := p
  cases hc
  simp only [BF.execOps, hp, hin]

/-- Witness for C8: a concrete `READ; END` program on empty stdin. -/
theorem claim_C8_witness :
    BF.execOps [⟨.READ, 0, 0⟩, ⟨.END, 0, 0⟩] 2 0 (BF.initSt []) =
      BF.execOps [⟨.READ, 0, 0⟩, ⟨.END, 0, 0⟩] 1 1
        { BF.initSt [] with
            i := (BF.initSt []).i + (0 : Int),
            tape := upd (BF.initSt []).tape ((BF.initSt []).i + (0 : Int)) 255 } :=
  claim_C8 [⟨.READ, 0, 0⟩, ⟨.END, 0, 0⟩] 0 ⟨.READ, 0, 0⟩ (BF.initSt []) 1 rfl rfl rfl

/-- C10.  `[]` parses to exactly `[SCAN(0, 0), END]` (`ZEROSEEK` with
stride 0 at entry offset 0, the collapsed `JMP_FWD`); executing it from
any state whose current cell is zero is a no-op (the state is returned
unchanged), and from any state whose current cell is nonzero it never
terminates (`none` for every fuel). -/
theorem claim_C10 :
    BF.parse [91, 93] = .ok [⟨.ZEROSEEK, 0, 0⟩, ⟨.END, 0, 0⟩] ∧
    (∀ (st : BF.RunSt) (fuel : Nat), st.tape st.i = 0 →
        BF.execOps [⟨.ZEROSEEK, 0, 0⟩, ⟨.END, 0, 0⟩] (fuel + 2) 0 st = some st) ∧
    (∀ (st : BF.RunSt) (fuel : Nat), st.tape st.i ≠ 0 →
        BF.execOps [⟨.ZEROSEEK, 0, 0⟩, ⟨.END, 0, 0⟩] fuel 0 st = none) := by
  refine ⟨rfl, ?_, ?_⟩
  · intro st fuel h
    simp [BF.execOps, BF.zeroseekRun, h]
  · intro st fuel h
    cases fuel with
    | zero => rfl
    | succ fuel =>
      simp [BF.execOps, BF.zeroseekRun_stride_zero st.tape st.i h]

/-- Witness for C10: the zeroed initial state terminates unchanged; a
state with a nonzero current cell exhausts any fuel. -/
theorem claim_C10_witness :
    BF.execOps [⟨.ZEROSEEK, 0, 0⟩, ⟨.END, 0, 0⟩] 2 0 (BF.initSt []) = some (BF.initSt []) ∧
    BF.execOps [⟨.ZEROSEEK, 0, 0⟩, ⟨.END, 0, 0⟩] 5 0 ⟨fun _ => 7, 0, [], []⟩ = none :=
  ⟨claim_C10.2.1 (BF.initSt []) 0 rfl, claim_C10.2.2 ⟨fun _ => 7, 0, [], []⟩ 5 (by decide)⟩
